import Mathlib

/-!
Shallow embedding of the Daedalus documentation-comment formatter
(`src/formatter.rs`, the final revision of the repository) together with
proofs about its parsing and rendering behaviour.

Strings are modelled as `List Char`.  Every nom parser is modelled as a
function `List Char → PResult α`; `PResult.fail` models a recoverable
`nom::Err::Error`, while `PResult.panic` models a Rust panic (an
`unwrap`/`expect` on a parse error), which aborts the whole process and
is therefore never caught by `alt`/`many0`/`opt`.  Rust's Unicode
character classes are restricted to their ASCII parts, which is the only
fragment the program's grammar exercises.
-/

namespace DaeDocu

/-- The whitespace characters recognised by nom's `multispace0/1`. -/
def isMS (c : Char) : Bool := c == ' ' || c == '\t' || c == '\r' || c == '\n'

/-- The characters recognised by nom's `space0`. -/
def isSpaceTab (c : Char) : Bool := c == ' ' || c == '\t'

/-- Convenience: the character list of a string literal. -/
def chars (s : String) : List Char := s.toList

/-- Result of running one nom parser: remaining input plus value, a
recoverable parse error, or a Rust panic. -/
inductive PResult (α : Type) where
  | ok (rest : List Char) (val : α)
  | fail
  | panic
deriving DecidableEq

/-- A nom parser over the input text. -/
abbrev Parser (α : Type) := List Char → PResult α

variable {α β : Type}

/-- Parser returning a fixed value without consuming input. -/
def pureP (a : α) : Parser α := fun i => .ok i a

/-- Sequencing of parsers, as in the `let (input, x) = p(input)?` chains
of the source: errors and panics propagate. -/
def pbind (p : Parser α) (f : α → Parser β) : Parser β := fun i =>
  match p i with
  | .ok r a => f a r
  | .fail => .fail
  | .panic => .panic

/-- nom `tag`. -/
def tag (pat : List Char) : Parser (List Char) := fun i =>
  if pat.isPrefixOf i then .ok (i.drop pat.length) pat else .fail

/-- nom `character::complete::char`. -/
def charP (c : Char) : Parser Char := fun i =>
  match i with
  | [] => .fail
  | x :: r => if x == c then .ok r x else .fail

/-- Greedy `take_while`-style primitive (always succeeds). -/
def takeWhileP (p : Char → Bool) : Parser (List Char) := fun i =>
  .ok (i.dropWhile p) (i.takeWhile p)

/-- nom `multispace0`. -/
def multispace0 : Parser (List Char) := takeWhileP isMS

/-- nom `multispace1`: like `multispace0` but fails on zero whitespace. -/
def multispace1 : Parser (List Char) := fun i =>
  match i with
  | [] => .fail
  | c :: _ =>
    if isMS c then .ok (i.dropWhile isMS) (i.takeWhile isMS) else .fail

/-- nom `space0`. -/
def space0 : Parser (List Char) := takeWhileP isSpaceTab

/-- nom `line_ending`: a `"\n"` or `"\r\n"`. -/
def line_ending : Parser (List Char) := fun i =>
  if (chars "\n").isPrefixOf i then .ok (i.drop 1) (chars "\n")
  else if (chars "\r\n").isPrefixOf i then .ok (i.drop 2) (chars "\r\n")
  else .fail

/-- nom `newline`. -/
def newlineP : Parser Char := charP '\n'

/-- Characters that are not part of a line ending. -/
def isNotLE (c : Char) : Bool := !(c == '\r') && !(c == '\n')

/-- nom `not_line_ending`: the (possibly empty) run of characters before
the next line ending; errors on a carriage return not followed by a
newline. -/
def not_line_ending : Parser (List Char) := fun i =>
  let pre := i.takeWhile isNotLE
  let rest := i.dropWhile isNotLE
  match rest with
  | '\r' :: tail => if tail.head? == some '\n' then .ok rest pre else .fail
  | _ => .ok rest pre

/-- Split the input at the first occurrence of the pattern: returns the
text before the occurrence and the input from the occurrence on. -/
def splitAtSub (pat : List Char) : List Char → Option (List Char × List Char)
  | [] => if pat.isPrefixOf ([] : List Char) then some ([], []) else none
  | c :: s =>
    if pat.isPrefixOf (c :: s) then some ([], c :: s)
    else
      match splitAtSub pat s with
      | some (a, b) => some (c :: a, b)
      | none => none

/-- nom `take_until`: consume up to (excluding) the first occurrence of
the pattern; fail when the pattern does not occur. -/
def take_until (pat : List Char) : Parser (List Char) := fun i =>
  match splitAtSub pat i with
  | some (a, b) => .ok b a
  | none => .fail

/-- nom `alt` for two branches (recoverable errors backtrack, panics do
not). -/
def alt (p q : Parser α) : Parser α := fun i =>
  match p i with
  | .fail => q i
  | r => r

/-- nom `opt`. -/
def opt (p : Parser α) : Parser (Option α) := fun i =>
  match p i with
  | .ok r a => .ok r (some a)
  | .fail => .ok i none
  | .panic => .panic

/-- Fuelled loop of nom `many0`, including nom's protection against an
inner parser that succeeds without consuming input (which makes `many0`
itself fail with `ErrorKind::Many0`). -/
def many0Go (p : Parser α) : Nat → Parser (List α)
  | 0 => fun _ => .fail
  | fuel + 1 => fun i =>
    match p i with
    | .panic => .panic
    | .fail => .ok i []
    | .ok r a =>
      if r.length < i.length then
        match many0Go p fuel r with
        | .ok r2 l => .ok r2 (a :: l)
        | .fail => .fail
        | .panic => .panic
      else .fail

/-- nom `many0`. -/
def many0 (p : Parser α) : Parser (List α) := fun i => many0Go p (i.length + 1) i

/-- Fuelled loop of nom `separated_list0`: separator then element, with
nom's protection against a separator that consumes nothing. -/
def sepGo (sep : Parser Char) (f : Parser (List Char)) :
    Nat → List Char → List (List Char) → PResult (List (List Char))
  | 0, _, _ => .fail
  | fuel + 1, i, acc =>
    match sep i with
    | .panic => .panic
    | .fail => .ok i acc
    | .ok i1 _ =>
      if i1.length == i.length then .fail
      else
        match f i1 with
        | .panic => .panic
        | .fail => .ok i acc
        | .ok i2 a => sepGo sep f fuel i2 (acc ++ [a])

/-- nom `separated_list0`. -/
def separated_list0 (sep : Parser Char) (f : Parser (List Char)) :
    Parser (List (List Char)) := fun i =>
  match f i with
  | .panic => .panic
  | .fail => .ok i []
  | .ok i1 a => sepGo sep f (i1.length + 1) i1 [a]

/-- The `DocuInfo` enum of `formatter.rs`. -/
inductive DocuInfo where
  | Parameter (name desc : List Char)
  | Global (name desc : List Char)
  | Return (desc : List Char)
deriving DecidableEq

/-- The `DocuComment` struct of `formatter.rs`. -/
structure DocuComment where
  description : Option (List Char)
  infos : List DocuInfo
  func_string : List Char
  func_name : List Char
deriving DecidableEq

/-- `parse_empty_line` of `formatter.rs`: `"///"`, optional spaces/tabs,
line ending. -/
def parse_empty_line : Parser Unit :=
  pbind (tag (chars "///")) fun _ =>
  pbind space0 fun _ =>
  pbind line_ending fun _ =>
  pureP ()

/-- `parse_param` of `formatter.rs`. -/
def parse_param : Parser DocuInfo :=
  pbind (tag (chars "///")) fun _ =>
  pbind multispace0 fun _ =>
  pbind (tag (chars "@param")) fun _ =>
  pbind multispace1 fun _ =>
  pbind (take_until (chars " ")) fun name =>
  pbind multispace1 fun _ =>
  pbind not_line_ending fun desc =>
  pureP (DocuInfo.Parameter name desc)

/-- `parse_global` of `formatter.rs`. -/
def parse_global : Parser DocuInfo :=
  pbind (tag (chars "///")) fun _ =>
  pbind multispace0 fun _ =>
  pbind (tag (chars "@global")) fun _ =>
  pbind multispace1 fun _ =>
  pbind (take_until (chars " ")) fun name =>
  pbind multispace1 fun _ =>
  pbind not_line_ending fun desc =>
  pureP (DocuInfo.Global name desc)

/-- `parse_return` of `formatter.rs`. -/
def parse_return : Parser DocuInfo :=
  pbind (tag (chars "///")) fun _ =>
  pbind multispace0 fun _ =>
  pbind (tag (chars "@return")) fun _ =>
  pbind multispace1 fun _ =>
  pbind not_line_ending fun desc =>
  pureP (DocuInfo.Return desc)

/-- `parse_docu_info` of `formatter.rs`. -/
def parse_docu_info : Parser DocuInfo :=
  pbind (opt parse_empty_line) fun _ =>
  pbind (alt parse_param (alt parse_global parse_return)) fun d =>
  pbind (opt parse_empty_line) fun _ =>
  pureP d

/-- `terminated(parse_docu_info, newline)`, the element parser of
`parse_infos`. -/
def infoItem : Parser DocuInfo :=
  pbind parse_docu_info fun d => pbind newlineP fun _ => pureP d

/-- `parse_infos` of `formatter.rs`: `many0(terminated(parse_docu_info, newline))`. -/
def parse_infos : Parser (List DocuInfo) :=
  many0 infoItem

/-- Rust `str::trim` (ASCII whitespace fragment). -/
def trim (s : List Char) : List Char :=
  ((s.dropWhile isMS).reverse.dropWhile isMS).reverse

/-- `parse_description` of `formatter.rs`.  The `strip_prefix("///")
.expect(..)` of the source panics when the description region does not
start with the comment marker; this is the `.panic` branch. -/
def parse_description : Parser (Option (List Char)) := fun i =>
  match alt (take_until (chars "///\n")) (take_until (chars "func")) i with
  | .ok rest desc =>
    if (chars "///").isPrefixOf desc then
      let d := trim (desc.drop 3)
      if d = [] then .ok rest none else .ok rest (some d)
    else .panic
  | .fail => .fail
  | .panic => .panic

/-- Identifier characters of the source's `identifier` parser. -/
def isIdentChar (c : Char) : Bool := c.isAlphanum || c == '_'

/-- `identifier` of `formatter.rs`: a maximal run of alphanumeric or
underscore characters whose first character is a letter or underscore. -/
def identifier : Parser (List Char) := fun i =>
  match i with
  | [] => .fail
  | c :: _ =>
    if c.isAlpha || c == '_' then .ok (i.dropWhile isIdentChar) (i.takeWhile isIdentChar)
    else .fail

/-- `parse_func` of `formatter.rs`: the declaration text strictly before
the first `"\x7b\x7d;"` terminator (the terminator itself is consumed but,
in this final revision, not re-appended to the returned text). -/
def parse_func : Parser (List Char) :=
  pbind (take_until (chars "\x7b\x7d;")) fun f =>
  pbind (tag (chars "\x7b\x7d;")) fun _ =>
  pureP f

/-- The parameter-span parser of `parse_function_signature`:
`alt((take_until(","), take_until(")")))`. -/
def paramElt : Parser (List Char) := alt (take_until (chars ",")) (take_until (chars ")"))

/-- Run one parser step inside `parse_function_signature`; `none` models
the `.unwrap()` panic of the source on any error. -/
def runStep (p : Parser α) (i : List Char) : Option (List Char × α) :=
  match p i with
  | .ok r a => some (r, a)
  | _ => none

/-- `parse_function_signature` of `formatter.rs`.  Every step is
`.unwrap()`ed in the source, so any deviation from the grammar is a Rust
panic, modelled by `none`. -/
def parse_function_signature (input : List Char) :
    Option (List Char × List (List Char)) := do
  let (i, _) ← runStep identifier input
  let (i, _) ← runStep multispace1 i
  let (i, _) ← runStep identifier i
  let (i, _) ← runStep multispace1 i
  let (i, name) ← runStep identifier i
  let (i, _) ← runStep multispace0 i
  let (i, _) ← runStep (tag (chars "(")) i
  let (_, params) ← runStep (separated_list0 (charP ',') paramElt) i
  let result : List (List Char) :=
    match params with
    | [[]] => []
    | _ => params.map trim
  some (name, result)

/-- `parse_doc_comment` of `formatter.rs`.  The signature extractor is
run on the declaration text; its panic aborts the whole run. -/
def parse_doc_comment : Parser DocuComment :=
  pbind (opt multispace0) fun _ =>
  pbind parse_description fun description =>
  pbind (many0 parse_empty_line) fun _ =>
  pbind parse_infos fun infos =>
  pbind parse_func fun func => fun i =>
    match parse_function_signature func with
    | some (name, _) =>
      .ok i { description := description, infos := infos,
              func_string := func, func_name := name }
    | none => .panic

/-- `delimited(multispace0, parse_doc_comment, multispace0)`, the element
parser of `parse_doc_comments`. -/
def blockItem : Parser DocuComment :=
  pbind multispace0 fun _ =>
  pbind parse_doc_comment fun dc =>
  pbind multispace0 fun _ => pureP dc

/-- `parse_doc_comments` of `formatter.rs`. -/
def parse_doc_comments : Parser (List DocuComment) :=
  many0 blockItem

/-- Predicate for `matches!(info, DocuInfo::Parameter(..))`. -/
def isParam : DocuInfo → Bool
  | .Parameter _ _ => true
  | _ => false

/-- Predicate for `matches!(info, DocuInfo::Global(..))`. -/
def isGlobal : DocuInfo → Bool
  | .Global _ _ => true
  | _ => false

/-- Predicate for `matches!(info, DocuInfo::Return(..))`. -/
def isRet : DocuInfo → Bool
  | .Return _ => true
  | _ => false

/-- The parameter list items pushed by `generate_md`, in source order. -/
def paramLines : List DocuInfo → List Char
  | [] => []
  | .Parameter n d :: r =>
    chars "    - `#!dae " ++ n ++ chars "` - " ++ d ++ chars "\n" ++ paramLines r
  | _ :: r => paramLines r

/-- The globals list items pushed by `generate_md`, in source order. -/
def globalLines : List DocuInfo → List Char
  | [] => []
  | .Global n d :: r =>
    chars "    - `#!dae " ++ n ++ chars "` - " ++ d ++ chars "\n" ++ globalLines r
  | _ :: r => globalLines r

/-- The single return line pushed by `generate_md`: the loop over the
infos breaks at the first `Return`. -/
def firstReturnLine : List DocuInfo → List Char
  | [] => []
  | .Return d :: _ => chars "    The function returns " ++ d ++ chars "\n"
  | _ :: r => firstReturnLine r

/-- `DocuComment::generate_md` of `formatter.rs`. -/
def generate_md (dc : DocuComment) : List Char :=
  chars "### `" ++ dc.func_name ++ chars "`\n" ++
  chars "!!! function \"`" ++ dc.func_name ++ chars "`\"\n" ++
  (match dc.description with
   | some d => chars "    " ++ d ++ chars "\n"
   | none => []) ++
  chars "    ```dae\n    " ++ dc.func_string ++ chars "\n    ```\n" ++
  (if dc.infos.any isParam then chars "\n    **Parameters**  \n\n" ++ paramLines dc.infos
   else []) ++
  (if dc.infos.any isGlobal then chars "\n    **Globals**  \n\n" ++ globalLines dc.infos
   else []) ++
  (if dc.infos.any isRet then chars "\n    **Return value**  \n" ++ firstReturnLine dc.infos
   else [])

/-- Outcome of one invocation of the public `parse` entry point:
a produced Markdown string (`Some` in the source), the `None` error
result, or a process-aborting panic. -/
inductive RunResult where
  | output (md : List Char)
  | failure
  | panicked
deriving DecidableEq

/-- The public `parse` function of `formatter.rs`: render every parsed
comment and join the fragments with a newline; on a parse error report
`None` (here `.failure`). -/
def parse (input : List Char) : RunResult :=
  match parse_doc_comments input with
  | .ok _ dcs => .output (List.intercalate (chars "\n") (dcs.map generate_md))
  | .fail => .failure
  | .panic => .panicked

/-! ### Analysis helpers (not part of the program) -/

/-- `cleanBefore pat a b = true` states that no occurrence of `pat`
starts inside `a` when the text continues with `b`. -/
def cleanBefore (pat : List Char) : List Char → List Char → Bool
  | [], _ => true
  | c :: a, b => !(pat.isPrefixOf (c :: (a ++ b))) && cleanBefore pat a b

/-- Characters permitted in the well-formedness families used below:
letters, digits, spaces and underscores.  This excludes every character
with a structural role in the grammar (`/`, `@`, `(`, `)`, `,`, braces,
`#`, and all line breaks). -/
def goodChar (c : Char) : Bool := c.isAlphanum || c == ' ' || c == '_'

/-- All characters of the text are `goodChar`. -/
def goodText (s : List Char) : Bool := s.all goodChar

/-- A one-line description: good characters, nonempty, no surrounding
whitespace. -/
def descOk (d : List Char) : Bool :=
  goodText d && !d.isEmpty && !(d.head? == some ' ') && !(d.getLast? == some ' ')

/-- The text is a nonempty identifier (letter-or-underscore start,
alphanumeric-or-underscore continuation). -/
def identOk : List Char → Bool
  | [] => false
  | c :: t => (c.isAlpha || c == '_') && (c :: t).all isIdentChar

/-- A one-line annotation description: good characters, nonempty, and
not starting with a space (so that the preceding `multispace1` stops at
the single separating space). -/
def annOk (d : List Char) : Bool :=
  goodText d && !d.isEmpty && !(d.head? == some ' ')

/-- A raw parameter span of a declaration: free of the separator and
closing characters, of the body terminator and of line breaks. -/
def spanChar (c : Char) : Bool :=
  !(c == ',') && !(c == ')') && !(c == '\x7b') && !(c == '\n') && !(c == '\r')

/-- All characters of a parameter span are permitted. -/
def spanOk (s : List Char) : Bool := s.all spanChar

/-- The comma-separated parameter-list text of a declaration. -/
def spansText : List (List Char) → List Char
  | [] => []
  | [s] => s
  | s :: r => s ++ ',' :: spansText r

/-- Is a raw comment line (three-slash prefix included) a tagged
annotation line?  Used only by `claimDescription` below. -/
def isTagged (l : List Char) : Bool :=
  let t := (l.drop 3).dropWhile isMS
  (chars "@param").isPrefixOf t || (chars "@global").isPrefixOf t ||
    (chars "@return").isPrefixOf t

/-- Is a raw comment line blank (marker followed only by whitespace)?
Used only by `claimDescription` below. -/
def isBlankComment (l : List Char) : Bool := (trim (l.drop 3)).isEmpty

/-- Modelled from the spec claim's wording, for comparison with the
implementation: description extraction takes all comment-line content
before the first tagged annotation line or the first blank comment line,
strips the comment marker and surrounding whitespace from each of those
lines, joins them into one text block, and yields no description when
that content is entirely empty. -/
def claimDescription (ls : List (List Char)) : Option (List Char) :=
  let pre := ls.takeWhile fun l => !(isBlankComment l) && !(isTagged l)
  let txt := List.intercalate (chars "\n") (pre.map fun l => trim (l.drop 3))
  if (trim txt).isEmpty then none else some (trim txt)

/-- Abstract data of one well-formed documentation block: a one-line
description, `@param` annotations, an optional `@return` annotation and
a declaration `func void <name>() \x7b\x7d;`. -/
structure Block where
  desc : List Char
  params : List (List Char × List Char)
  ret : Option (List Char)
  name : List Char

/-- The annotation lines of a well-formed block. -/
def annotLines : List (List Char × List Char) → List Char
  | [] => []
  | (n, d) :: r => chars "/// @param " ++ n ++ chars " " ++ d ++ chars "\n" ++ annotLines r

/-- The optional `@return` line of a well-formed block. -/
def retText : Option (List Char) → List Char
  | some r => chars "/// @return " ++ r ++ chars "\n"
  | none => []

/-- The `DocuInfo` value of the optional `@return` line. -/
def retInfo : Option (List Char) → List DocuInfo
  | some r => [DocuInfo.Return r]
  | none => []

/-- Well-formedness of the optional `@return` description. -/
def retOk : Option (List Char) → Bool
  | some r => annOk r
  | none => true

/-- The concrete source text of one well-formed block. -/
def renderBlock (b : Block) : List Char :=
  chars "/// " ++ b.desc ++ chars "\n///\n" ++
  annotLines b.params ++ retText b.ret ++
  chars "func void " ++ b.name ++ chars "() \x7b\x7d;\n"

/-- The concrete source text of a sequence of well-formed blocks. -/
def renderInput : List Block → List Char
  | [] => []
  | b :: bs => renderBlock b ++ renderInput bs

/-- The `DocuInfo` values the parser extracts from a well-formed block. -/
def infosOf (b : Block) : List DocuInfo :=
  b.params.map (fun p => DocuInfo.Parameter p.1 p.2) ++ retInfo b.ret

/-- The documentation unit the parser extracts from a well-formed block. -/
def dcOf (b : Block) : DocuComment :=
  { description := some b.desc
    infos := infosOf b
    func_string := chars "func void " ++ b.name ++ chars "() "
    func_name := b.name }

/-- Well-formedness of one abstract block. -/
def blockOk (b : Block) : Bool :=
  descOk b.desc && identOk b.name &&
  b.params.all (fun p => identOk p.1 && annOk p.2) && retOk b.ret

/-- The final Markdown of a sequence of well-formed blocks. -/
def mdOf (bs : List Block) : List Char :=
  List.intercalate (chars "\n") (bs.map fun b => generate_md (dcOf b))

/-- Split a text into its lines (separator-style, as `str::lines` plus a
final empty line for a trailing newline). -/
def linesOf : List Char → List (List Char)
  | [] => [[]]
  | c :: r =>
    if c = '\n' then [] :: linesOf r
    else
      match linesOf r with
      | [] => [[c]]
      | l :: ls => (c :: l) :: ls

/-- The level-3 heading lines of a Markdown text. -/
def headingLinesOf (s : List Char) : List (List Char) :=
  (linesOf s).filter fun l => (chars "### ").isPrefixOf l

/-- The heading line rendered for a block. -/
def headingOf (b : Block) : List Char := chars "### `" ++ b.name ++ chars "`"

/-- Join lines, terminating each with a newline. -/
def unlines : List (List Char) → List Char
  | [] => []
  | l :: ls => l ++ '\n' :: unlines ls

/-- One rendered parameter list item (without its newline). -/
def itemLine (n d : List Char) : List Char :=
  chars "    - `#!dae " ++ n ++ chars "` - " ++ d

/-- The rendered parameter list items of a block, as lines. -/
def paramItemsLines : List (List Char × List Char) → List (List Char)
  | [] => []
  | (n, d) :: r => itemLine n d :: paramItemsLines r

/-- The lines of the Markdown fragment rendered for one well-formed
block. -/
def fragLines (b : Block) : List (List Char) :=
  [chars "### `" ++ b.name ++ chars "`",
   chars "!!! function \"`" ++ b.name ++ chars "`\"",
   chars "    " ++ b.desc,
   chars "    ```dae",
   chars "    func void " ++ b.name ++ chars "() ",
   chars "    ```"] ++
  (if b.params = [] then []
   else [[], chars "    **Parameters**  ", []] ++ paramItemsLines b.params) ++
  (match b.ret with
   | some r => [[], chars "    **Return value**  ", chars "    The function returns " ++ r]
   | none => [])

end DaeDocu

namespace DaeDocu

/-! ### Generic character and list lemmas -/

theorem ne_of_pred {p : Char → Bool} {c d : Char} (hc : p c = true)
    (hd : p d = false) : c ≠ d := by
  intro h
  rw [h, hd] at hc
  exact Bool.false_ne_true hc

theorem beq_false_of_pred {p : Char → Bool} {c d : Char} (hc : p c = true)
    (hd : p d = false) : (c == d) = false :=
  beq_eq_false_iff_ne.mpr (ne_of_pred hc hd)

theorem isPrefixOf_self_append (l r : List Char) : l.isPrefixOf (l ++ r) = true := by
  induction l with
  | nil => simp
  | cons c t ih => simp [List.isPrefixOf_cons₂, ih]

theorem eq_append_of_isPrefixOf {pat s : List Char} (h : pat.isPrefixOf s = true) :
    s = pat ++ s.drop pat.length := by
  induction pat generalizing s with
  | nil => simp
  | cons c t ih =>
    cases s with
    | nil => simp at h
    | cons x r =>
      rw [List.isPrefixOf_cons₂, Bool.and_eq_true] at h
      obtain ⟨h1, h2⟩ := h
      have hcx : c = x := eq_of_beq h1
      subst hcx
      simpa using ih h2

/-! ### Lemmas about `splitAtSub` and `cleanBefore` -/

theorem splitAtSub_of_prefix {pat s : List Char} (hp : pat ≠ [])
    (h : pat.isPrefixOf s = true) : splitAtSub pat s = some ([], s) := by
  cases s with
  | nil =>
    cases pat with
    | nil => exact absurd rfl hp
    | cons c t => simp at h
  | cons c r => simp [splitAtSub, h]

theorem splitAtSub_append_clean {pat a b : List Char}
    (h : cleanBefore pat a b = true) :
    splitAtSub pat (a ++ b) = (splitAtSub pat b).map fun q => (a ++ q.1, q.2) := by
  induction a with
  | nil =>
    cases hb : splitAtSub pat b with
    | none => simp [hb]
    | some q => simp [hb]
  | cons c t ih =>
    rw [cleanBefore, Bool.and_eq_true] at h
    obtain ⟨h1, h2⟩ := h
    have hnp : pat.isPrefixOf (c :: (t ++ b)) = false := by
      cases hx : pat.isPrefixOf (c :: (t ++ b)) with
      | false => rfl
      | true => rw [hx] at h1; simp at h1
    show splitAtSub pat (c :: (t ++ b)) = _
    rw [splitAtSub, hnp]
    simp only [Bool.false_eq_true, if_false]
    rw [ih h2]
    cases hb : splitAtSub pat b with
    | none => simp
    | some q => simp

theorem splitAtSub_none {pat s : List Char} (hp : pat ≠ [])
    (h : cleanBefore pat s [] = true) : splitAtSub pat s = none := by
  induction s with
  | nil =>
    cases pat with
    | nil => exact absurd rfl hp
    | cons c t => simp [splitAtSub]
  | cons c t ih =>
    rw [cleanBefore, Bool.and_eq_true] at h
    obtain ⟨h1, h2⟩ := h
    have hnp : pat.isPrefixOf (c :: t) = false := by
      have := h1
      rw [List.append_nil] at this
      cases hx : pat.isPrefixOf (c :: t) with
      | false => rfl
      | true => rw [hx] at this; simp at this
    rw [splitAtSub, hnp]
    simp only [Bool.false_eq_true, if_false]
    rw [ih h2]

theorem cleanBefore_append {pat a c b : List Char} :
    cleanBefore pat (a ++ c) b =
      (cleanBefore pat a (c ++ b) && cleanBefore pat c b) := by
  induction a with
  | nil => simp [cleanBefore]
  | cons x t ih =>
    show cleanBefore pat (x :: (t ++ c)) b = _
    rw [cleanBefore, cleanBefore, ih, List.append_assoc, Bool.and_assoc]

theorem cleanBefore_of_notMem {p : Char} {pat' a b : List Char}
    (h : ∀ c ∈ a, c ≠ p) : cleanBefore (p :: pat') a b = true := by
  induction a with
  | nil => rfl
  | cons c t ih =>
    rw [cleanBefore, Bool.and_eq_true]
    refine ⟨?_, ih fun x hx => h x (List.mem_cons_of_mem _ hx)⟩
    have hc : c ≠ p := h c (List.mem_cons_self c t)
    rw [List.isPrefixOf_cons₂]
    simp [beq_eq_false_iff_ne.mpr (Ne.symm hc)]

theorem isPrefixOf_append_left {pat x : List Char} (y : List Char)
    (h : pat.isPrefixOf x = true) : pat.isPrefixOf (x ++ y) = true := by
  induction pat generalizing x with
  | nil => simp
  | cons c t ih =>
    cases x with
    | nil => simp at h
    | cons u v =>
      rw [List.isPrefixOf_cons₂, Bool.and_eq_true] at h
      obtain ⟨h1, h2⟩ := h
      rw [List.cons_append, List.isPrefixOf_cons₂, Bool.and_eq_true]
      exact ⟨h1, ih h2⟩

theorem isPrefixOf_nil_of_ne {pat : List Char} (hp : pat ≠ []) :
    pat.isPrefixOf ([] : List Char) = false := by
  cases pat with
  | nil => exact absurd rfl hp
  | cons c t => simp

theorem splitAtSub_some_parts {pat s a b : List Char} (hp : pat ≠ [])
    (h : splitAtSub pat s = some (a, b)) :
    s = a ++ b ∧ pat.isPrefixOf b = true ∧ splitAtSub pat a = none := by
  induction s generalizing a b with
  | nil =>
    rw [splitAtSub, isPrefixOf_nil_of_ne hp] at h
    simp at h
  | cons c t ih =>
    rw [splitAtSub] at h
    by_cases hpre : pat.isPrefixOf (c :: t) = true
    · rw [if_pos hpre] at h
      simp only [Option.some.injEq, Prod.mk.injEq] at h
      obtain ⟨ha, hb⟩ := h
      subst ha; subst hb
      refine ⟨rfl, hpre, ?_⟩
      rw [splitAtSub, isPrefixOf_nil_of_ne hp]
      simp
    · rw [if_neg hpre] at h
      cases hs : splitAtSub pat t with
      | none => rw [hs] at h; simp at h
      | some q =>
        obtain ⟨a0, b0⟩ := q
        rw [hs] at h
        simp only [Option.some.injEq, Prod.mk.injEq] at h
        obtain ⟨ha, hb⟩ := h
        subst hb
        obtain ⟨e1, e2, e3⟩ := ih hs
        subst ha
        refine ⟨by rw [List.cons_append, ← e1], e2, ?_⟩
        rw [splitAtSub]
        have hpre2 : pat.isPrefixOf (c :: a0) = false := by
          cases hx : pat.isPrefixOf (c :: a0) with
          | false => rfl
          | true =>
            exfalso
            apply hpre
            have := isPrefixOf_append_left b0 hx
            rw [List.cons_append, ← e1] at this
            exact this
        rw [hpre2]
        simp only [Bool.false_eq_true, if_false]
        rw [e3]

/-! ### takeWhile / dropWhile / trim lemmas -/

theorem takeWhile_append_stop {p : Char → Bool} {a : List Char} {c : Char}
    {b : List Char} (ha : ∀ x ∈ a, p x = true) (hc : p c = false) :
    (a ++ c :: b).takeWhile p = a ∧ (a ++ c :: b).dropWhile p = c :: b := by
  induction a with
  | nil =>
    constructor
    · rw [List.nil_append, List.takeWhile_cons_of_neg (by simp [hc])]
    · rw [List.nil_append, List.dropWhile_cons_of_neg (by simp [hc])]
  | cons x t ih =>
    have hx : p x = true := ha x (List.mem_cons_self x t)
    obtain ⟨h1, h2⟩ := ih fun y hy => ha y (List.mem_cons_of_mem _ hy)
    constructor
    · rw [List.cons_append, List.takeWhile_cons_of_pos hx, h1]
    · rw [List.cons_append, List.dropWhile_cons_of_pos hx, h2]

theorem dropWhile_eq_self_of_head {p : Char → Bool} {l : List Char}
    (h : ∀ c, l.head? = some c → p c = false) : l.dropWhile p = l := by
  cases l with
  | nil => rfl
  | cons c t =>
    exact List.dropWhile_cons_of_neg (by simp [h c rfl])

/-! ### Consequences of the goodness predicates -/

theorem goodText_mem {s : List Char} (h : goodText s = true) :
    ∀ c ∈ s, goodChar c = true := by
  intro c hc
  exact List.all_eq_true.mp h c hc

theorem identOk_mem {n : List Char} (h : identOk n = true) :
    ∀ c ∈ n, isIdentChar c = true := by
  cases n with
  | nil => intro c hc; simp at hc
  | cons x t =>
    rw [identOk, Bool.and_eq_true] at h
    intro c hc
    exact List.all_eq_true.mp h.2 c hc

theorem identOk_ne_nil {n : List Char} (h : identOk n = true) : n ≠ [] := by
  cases n with
  | nil => simp [identOk] at h
  | cons x t => simp

theorem identOk_head {n : List Char} (h : identOk n = true) :
    ∀ c, n.head? = some c → (c.isAlpha || c == '_') = true := by
  cases n with
  | nil => simp [identOk] at h
  | cons x t =>
    rw [identOk, Bool.and_eq_true] at h
    intro c hc
    simp only [List.head?_cons, Option.some.injEq] at hc
    subst hc
    exact h.1

theorem goodChar_not_MS {c : Char} (h : goodChar c = true) (hsp : c ≠ ' ') :
    isMS c = false := by
  rw [isMS]
  rw [beq_eq_false_iff_ne.mpr hsp]
  rw [beq_false_of_pred h (show goodChar '\t' = false by decide)]
  rw [beq_false_of_pred h (show goodChar '\r' = false by decide)]
  rw [beq_false_of_pred h (show goodChar '\n' = false by decide)]
  rfl

theorem identChar_good {c : Char} (h : isIdentChar c = true) : goodChar c = true := by
  rw [isIdentChar, Bool.or_eq_true] at h
  rcases h with h | h
  · rw [goodChar, h]; rfl
  · rw [goodChar, h]; simp

theorem identChar_not_MS {c : Char} (h : isIdentChar c = true) : isMS c = false :=
  goodChar_not_MS (identChar_good h)
    (ne_of_pred h (show isIdentChar ' ' = false by decide))

theorem goodChar_isNotLE {c : Char} (h : goodChar c = true) : isNotLE c = true := by
  rw [isNotLE]
  rw [beq_false_of_pred h (show goodChar '\r' = false by decide)]
  rw [beq_false_of_pred h (show goodChar '\n' = false by decide)]
  rfl

theorem descOk_parts {d : List Char} (h : descOk d = true) :
    goodText d = true ∧ d ≠ [] ∧
    (∀ c, d.head? = some c → isMS c = false) ∧
    (∀ c, d.getLast? = some c → isMS c = false) := by
  rw [descOk, Bool.and_eq_true, Bool.and_eq_true, Bool.and_eq_true] at h
  obtain ⟨⟨⟨hg, hne⟩, hh⟩, hl⟩ := h
  have hnil : d ≠ [] := by
    intro hd
    subst hd
    simp at hne
  refine ⟨hg, hnil, ?_, ?_⟩
  · intro c hc
    have hmem : c ∈ d := List.mem_of_mem_head? (by rw [hc]; rfl)
    have hcsp : c ≠ ' ' := by
      intro hceq
      subst hceq
      rw [hc] at hh
      simp at hh
    exact goodChar_not_MS (goodText_mem hg c hmem) hcsp
  · intro c hc
    have hmem : c ∈ d := by
      rw [List.getLast?_eq_head?_reverse] at hc
      exact (List.mem_reverse).mp (List.mem_of_mem_head? (by rw [hc]; rfl))
    have hcsp : c ≠ ' ' := by
      intro hceq
      subst hceq
      rw [hc] at hl
      simp at hl
    exact goodChar_not_MS (goodText_mem hg c hmem) hcsp

/-- Trimming a text wrapped in the single leading space and trailing
newline produced by the comment-region splitting. -/
theorem trim_sp_nl {x : List Char} (hx : x ≠ [])
    (hh : ∀ c, x.head? = some c → isMS c = false)
    (hl : ∀ c, x.getLast? = some c → isMS c = false) :
    trim (' ' :: (x ++ ['\n'])) = x := by
  rw [trim]
  rw [List.dropWhile_cons_of_pos (by decide)]
  have h1 : (x ++ ['\n']).dropWhile isMS = x ++ ['\n'] := by
    cases x with
    | nil => exact absurd rfl hx
    | cons c t =>
      rw [List.cons_append]
      exact List.dropWhile_cons_of_neg (by simp [hh c rfl])
  rw [h1, List.reverse_append]
  show (('\n' :: x.reverse).dropWhile isMS).reverse = x
  rw [List.dropWhile_cons_of_pos (by decide)]
  rw [dropWhile_eq_self_of_head (by intro c hc; exact hl c (by rwa [List.getLast?_eq_head?_reverse]))]
  exact List.reverse_reverse x

end DaeDocu

namespace DaeDocu

/-! ### Character-list forms of the string literals used in proofs -/

theorem chars_slash3 : chars "///" = ['/', '/', '/'] := rfl

theorem chars_slash3nl : chars "///\n" = ['/', '/', '/', '\n'] := rfl

theorem chars_slash3sp : chars "/// " = ['/', '/', '/', ' '] := rfl

theorem chars_func : chars "func" = ['f', 'u', 'n', 'c'] := rfl

theorem chars_term : chars "\x7b\x7d;" = ['\x7b', '\x7d', ';'] := rfl

theorem chars_space : chars " " = [' '] := rfl

/-! ### Combinator rewrite lemmas -/

theorem pbind_ok {p : Parser α} {f : α → Parser β} {i r : List Char} {a : α}
    (h : p i = .ok r a) : pbind p f i = f a r := by
  show (match p i with
        | PResult.ok r a => f a r
        | PResult.fail => PResult.fail
        | PResult.panic => PResult.panic) = f a r
  rw [h]

theorem pbind_fail {p : Parser α} {f : α → Parser β} {i : List Char}
    (h : p i = .fail) : pbind p f i = .fail := by
  show (match p i with
        | PResult.ok r a => f a r
        | PResult.fail => PResult.fail
        | PResult.panic => PResult.panic) = .fail
  rw [h]

theorem pbind_panic {p : Parser α} {f : α → Parser β} {i : List Char}
    (h : p i = .panic) : pbind p f i = .panic := by
  show (match p i with
        | PResult.ok r a => f a r
        | PResult.fail => PResult.fail
        | PResult.panic => PResult.panic) = .panic
  rw [h]

theorem alt_first {p q : Parser α} {i : List Char} {r : List Char} {a : α}
    (h : p i = .ok r a) : alt p q i = .ok r a := by
  show (match p i with
        | PResult.fail => q i
        | r => r) = .ok r a
  rw [h]

theorem alt_second {p q : Parser α} {i : List Char}
    (h : p i = .fail) : alt p q i = q i := by
  show (match p i with
        | PResult.fail => q i
        | r => r) = q i
  rw [h]

theorem opt_ok {p : Parser α} {i r : List Char} {a : α}
    (h : p i = .ok r a) : opt p i = .ok r (some a) := by
  show (match p i with
        | PResult.ok r a => PResult.ok r (some a)
        | PResult.fail => PResult.ok i none
        | PResult.panic => PResult.panic) = .ok r (some a)
  rw [h]

theorem opt_fail {p : Parser α} {i : List Char}
    (h : p i = .fail) : opt p i = .ok i none := by
  show (match p i with
        | PResult.ok r a => PResult.ok r (some a)
        | PResult.fail => PResult.ok i none
        | PResult.panic => PResult.panic) = .ok i none
  rw [h]

/-! ### Primitive parser lemmas -/

theorem tag_ok (pat rest : List Char) : tag pat (pat ++ rest) = .ok rest pat := by
  rw [tag, if_pos (isPrefixOf_self_append pat rest), List.drop_left]

theorem tag_fail {pat i : List Char} (h : pat.isPrefixOf i = false) :
    tag pat i = .fail := by
  rw [tag, if_neg (by simp [h])]

theorem take_until_ok {pat a c : List Char} (hp : pat ≠ [])
    (hclean : cleanBefore pat a (pat ++ c) = true) :
    take_until pat (a ++ (pat ++ c)) = .ok (pat ++ c) a := by
  rw [take_until, splitAtSub_append_clean hclean,
    splitAtSub_of_prefix hp (isPrefixOf_self_append pat c)]
  simp

theorem take_until_fail {pat s : List Char} (hp : pat ≠ [])
    (hclean : cleanBefore pat s [] = true) : take_until pat s = .fail := by
  rw [take_until, splitAtSub_none hp hclean]

theorem multispace0_skip {i : List Char}
    (h : ∀ c, i.head? = some c → isMS c = false) : multispace0 i = .ok i [] := by
  cases i with
  | nil => rfl
  | cons c t =>
    rw [multispace0, takeWhileP]
    rw [List.dropWhile_cons_of_neg (by simp [h c rfl]),
      List.takeWhile_cons_of_neg (by simp [h c rfl])]

theorem multispace1_single {rest : List Char}
    (h : ∀ c, rest.head? = some c → isMS c = false) :
    multispace1 (' ' :: rest) = .ok rest [' '] := by
  rw [multispace1]
  rw [if_pos (by decide)]
  rw [List.dropWhile_cons_of_pos (by decide), List.takeWhile_cons_of_pos (by decide)]
  rw [dropWhile_eq_self_of_head h]
  congr 1
  cases rest with
  | nil => rfl
  | cons c t => rw [List.takeWhile_cons_of_neg (by simp [h c rfl])]

theorem identifier_ok {n : List Char} {x : Char} {xs : List Char}
    (hn : identOk n = true) (hx : isIdentChar x = false) :
    identifier (n ++ x :: xs) = .ok (x :: xs) n := by
  obtain ⟨c, t, hct⟩ : ∃ c t, n = c :: t := by
    cases n with
    | nil => exact absurd rfl (identOk_ne_nil hn)
    | cons c t => exact ⟨c, t, rfl⟩
  subst hct
  rw [List.cons_append, identifier]
  rw [if_pos (by simpa using identOk_head hn c rfl)]
  obtain ⟨h1, h2⟩ := takeWhile_append_stop (p := isIdentChar) (identOk_mem hn) hx
  rw [List.cons_append] at h1 h2
  rw [h1, h2]

theorem space0_skip {i : List Char}
    (h : ∀ c, i.head? = some c → isSpaceTab c = false) : space0 i = .ok i [] := by
  cases i with
  | nil => rfl
  | cons c t =>
    rw [space0, takeWhileP]
    rw [List.dropWhile_cons_of_neg (by simp [h c rfl]),
      List.takeWhile_cons_of_neg (by simp [h c rfl])]

theorem line_ending_nl (rest : List Char) :
    line_ending ('\n' :: rest) = .ok rest (chars "\n") := by
  rw [line_ending]
  rw [if_pos (by rw [show chars "\n" = ['\n'] from rfl]; simp [List.isPrefixOf_cons₂])]
  rfl

theorem line_ending_fail {x : Char} {rest : List Char}
    (hnl : x ≠ '\n') (hcr : x ≠ '\r') : line_ending (x :: rest) = .fail := by
  rw [line_ending]
  rw [if_neg (by
    rw [show chars "\n" = ['\n'] from rfl]
    simp [List.isPrefixOf_cons₂, beq_eq_false_iff_ne.mpr (Ne.symm hnl)])]
  rw [if_neg (by
    rw [show chars "\r\n" = ['\r', '\n'] from rfl]
    simp [List.isPrefixOf_cons₂, beq_eq_false_iff_ne.mpr (Ne.symm hcr)])]

theorem not_line_ending_ok {d : List Char} (rest : List Char)
    (hd : ∀ x ∈ d, isNotLE x = true) :
    not_line_ending (d ++ '\n' :: rest) = .ok ('\n' :: rest) d := by
  obtain ⟨h1, h2⟩ := takeWhile_append_stop (c := '\n') (b := rest) hd (by decide)
  show (match (d ++ '\n' :: rest).dropWhile isNotLE with
        | '\r' :: tail =>
          if tail.head? == some '\n' then
            PResult.ok ((d ++ '\n' :: rest).dropWhile isNotLE) ((d ++ '\n' :: rest).takeWhile isNotLE)
          else .fail
        | _ => PResult.ok ((d ++ '\n' :: rest).dropWhile isNotLE) ((d ++ '\n' :: rest).takeWhile isNotLE)) =
      .ok ('\n' :: rest) d
  rw [h1, h2]
  rfl

theorem parse_empty_line_ok (rest : List Char) :
    parse_empty_line ('/' :: '/' :: '/' :: '\n' :: rest) = .ok rest () := by
  rw [parse_empty_line]
  rw [pbind_ok (show tag (chars "///") ('/' :: '/' :: '/' :: '\n' :: rest) = .ok ('\n' :: rest) (chars "///") from tag_ok (chars "///") ('\n' :: rest))]
  rw [pbind_ok (space0_skip (by intro c hc; injection hc with hc; rw [← hc]; decide))]
  rw [pbind_ok (line_ending_nl rest)]
  rfl

theorem parse_empty_line_fail_at {x : Char} {rest : List Char}
    (hsp : isSpaceTab x = false) (hnl : x ≠ '\n') (hcr : x ≠ '\r') :
    parse_empty_line ('/' :: '/' :: '/' :: ' ' :: x :: rest) = .fail := by
  rw [parse_empty_line]
  rw [pbind_ok (show tag (chars "///") ('/' :: '/' :: '/' :: ' ' :: x :: rest) = .ok (' ' :: x :: rest) (chars "///") from tag_ok (chars "///") (' ' :: x :: rest))]
  have hs : space0 (' ' :: x :: rest) = .ok (x :: rest) [' '] := by
    rw [space0, takeWhileP]
    rw [List.dropWhile_cons_of_pos (by decide), List.takeWhile_cons_of_pos (by decide)]
    rw [List.dropWhile_cons_of_neg (by simp [hsp]), List.takeWhile_cons_of_neg (by simp [hsp])]
  rw [pbind_ok hs]
  rw [pbind_fail (line_ending_fail hnl hcr)]

theorem parse_empty_line_fail_head {i : List Char}
    (h : ∀ c, i.head? = some c → c ≠ '/') : parse_empty_line i = .fail := by
  rw [parse_empty_line]
  apply pbind_fail
  apply tag_fail
  cases i with
  | nil => rw [chars_slash3]; simp
  | cons c t =>
    rw [chars_slash3]
    simp [List.isPrefixOf_cons₂, beq_eq_false_iff_ne.mpr (Ne.symm (h c rfl))]

end DaeDocu

namespace DaeDocu

/-! ### Annotation-line lemmas -/

theorem cleanBefore_of_pred {p : Char → Bool} {x : Char} {t a b : List Char}
    (hmem : ∀ c ∈ a, p c = true) (hx : p x = false) :
    cleanBefore (x :: t) a b = true :=
  cleanBefore_of_notMem fun c hc => ne_of_pred (hmem c hc) hx

theorem annOk_parts {d : List Char} (h : annOk d = true) :
    (∀ c ∈ d, goodChar c = true) ∧ d ≠ [] ∧
    (∀ c, d.head? = some c → isMS c = false) := by
  rw [annOk, Bool.and_eq_true, Bool.and_eq_true] at h
  obtain ⟨⟨hg, hne⟩, hh⟩ := h
  have hnil : d ≠ [] := by intro hd; subst hd; simp at hne
  refine ⟨goodText_mem hg, hnil, ?_⟩
  intro c hc
  have hmem : c ∈ d := List.mem_of_mem_head? (by rw [hc]; rfl)
  have hcsp : c ≠ ' ' := by
    intro hceq
    subst hceq
    rw [hc] at hh
    simp at hh
  exact goodChar_not_MS (goodText_mem hg c hmem) hcsp

theorem identOk_head_notMS {n : List Char} (hn : identOk n = true) :
    ∀ c, n.head? = some c → isMS c = false := fun c hc =>
  identChar_not_MS (identOk_mem hn c (List.mem_of_mem_head? (by rw [hc]; rfl)))

theorem head_notMS_append {n : List Char} (X : List Char)
    (hne : n ≠ []) (hh : ∀ c, n.head? = some c → isMS c = false) :
    ∀ c, (n ++ X).head? = some c → isMS c = false := by
  cases n with
  | nil => exact absurd rfl hne
  | cons x t =>
    intro c hc
    simp only [List.cons_append, List.head?_cons, Option.some.injEq] at hc
    subst hc
    exact hh x rfl

theorem multispace0_sp {i : List Char}
    (h : ∀ c, i.head? = some c → isMS c = false) :
    multispace0 (' ' :: i) = .ok i [' '] := by
  cases i with
  | nil => rfl
  | cons c t =>
    rw [multispace0, takeWhileP]
    rw [List.dropWhile_cons_of_pos (by decide),
      List.dropWhile_cons_of_neg (by simp [h c rfl]),
      List.takeWhile_cons_of_pos (by decide),
      List.takeWhile_cons_of_neg (by simp [h c rfl])]

theorem charP_ok (c : Char) (r : List Char) : charP c (c :: r) = .ok r c := by
  show (if (c == c) = true then PResult.ok r c else PResult.fail) = PResult.ok r c
  simp

theorem newlineP_ok (rest : List Char) : newlineP ('\n' :: rest) = .ok rest '\n' :=
  charP_ok '\n' rest

theorem parse_param_line (nm ds rest : List Char)
    (hn : identOk nm = true) (hd : annOk ds = true) :
    parse_param (chars "/// @param " ++ (nm ++ ' ' :: (ds ++ '\n' :: rest))) =
      .ok ('\n' :: rest) (.Parameter nm ds) := by
  obtain ⟨hdg, hdne, hdh⟩ := annOk_parts hd
  rw [parse_param]
  rw [show chars "/// @param " ++ (nm ++ ' ' :: (ds ++ '\n' :: rest)) =
      chars "///" ++ (' ' :: '@' :: 'p' :: 'a' :: 'r' :: 'a' :: 'm' :: ' ' ::
        (nm ++ ' ' :: (ds ++ '\n' :: rest))) from by simp [chars]]
  rw [pbind_ok (tag_ok _ _)]
  rw [pbind_ok (multispace0_sp (by intro c hc; injection hc with h1; rw [← h1]; decide))]
  rw [show ('@' :: 'p' :: 'a' :: 'r' :: 'a' :: 'm' :: ' ' :: (nm ++ ' ' :: (ds ++ '\n' :: rest))) =
      chars "@param" ++ (' ' :: (nm ++ ' ' :: (ds ++ '\n' :: rest))) from by simp [chars]]
  rw [pbind_ok (tag_ok _ _)]
  rw [pbind_ok (multispace1_single
    (head_notMS_append _ (identOk_ne_nil hn) (identOk_head_notMS hn)))]
  rw [chars_space]
  rw [show nm ++ ' ' :: (ds ++ '\n' :: rest) = nm ++ ([' '] ++ (ds ++ '\n' :: rest)) from rfl]
  rw [pbind_ok (take_until_ok (by simp)
    (cleanBefore_of_pred (identOk_mem hn) (by decide)))]
  rw [show [' '] ++ (ds ++ '\n' :: rest) = ' ' :: (ds ++ '\n' :: rest) from rfl]
  rw [pbind_ok (multispace1_single (head_notMS_append _ hdne hdh))]
  rw [pbind_ok (not_line_ending_ok rest fun x hx => goodChar_isNotLE (hdg x hx))]
  rfl

theorem parse_return_line (r rest : List Char) (hr : annOk r = true) :
    parse_return (chars "/// @return " ++ (r ++ '\n' :: rest)) =
      .ok ('\n' :: rest) (.Return r) := by
  obtain ⟨hrg, hrne, hrh⟩ := annOk_parts hr
  rw [parse_return]
  rw [show chars "/// @return " ++ (r ++ '\n' :: rest) =
      chars "///" ++ (' ' :: '@' :: 'r' :: 'e' :: 't' :: 'u' :: 'r' :: 'n' :: ' ' ::
        (r ++ '\n' :: rest)) from by simp [chars]]
  rw [pbind_ok (tag_ok _ _)]
  rw [pbind_ok (multispace0_sp (by intro c hc; injection hc with h1; rw [← h1]; decide))]
  rw [show ('@' :: 'r' :: 'e' :: 't' :: 'u' :: 'r' :: 'n' :: ' ' :: (r ++ '\n' :: rest)) =
      chars "@return" ++ (' ' :: (r ++ '\n' :: rest)) from by simp [chars]]
  rw [pbind_ok (tag_ok _ _)]
  rw [pbind_ok (multispace1_single (head_notMS_append _ hrne hrh))]
  rw [pbind_ok (not_line_ending_ok rest fun x hx => goodChar_isNotLE (hrg x hx))]
  rfl

theorem parse_param_fail_at_r (X : List Char) :
    parse_param ('/' :: '/' :: '/' :: ' ' :: '@' :: 'r' :: X) = .fail := by
  rw [parse_param]
  rw [show ('/' :: '/' :: '/' :: ' ' :: '@' :: 'r' :: X) =
      chars "///" ++ (' ' :: '@' :: 'r' :: X) from by simp [chars]]
  rw [pbind_ok (tag_ok _ _)]
  rw [pbind_ok (multispace0_sp (by intro c hc; injection hc with h1; rw [← h1]; decide))]
  apply pbind_fail
  apply tag_fail
  rw [show chars "@param" = ['@', 'p', 'a', 'r', 'a', 'm'] from rfl]
  simp [List.isPrefixOf_cons₂]

theorem parse_global_fail_at_r (X : List Char) :
    parse_global ('/' :: '/' :: '/' :: ' ' :: '@' :: 'r' :: X) = .fail := by
  rw [parse_global]
  rw [show ('/' :: '/' :: '/' :: ' ' :: '@' :: 'r' :: X) =
      chars "///" ++ (' ' :: '@' :: 'r' :: X) from by simp [chars]]
  rw [pbind_ok (tag_ok _ _)]
  rw [pbind_ok (multispace0_sp (by intro c hc; injection hc with h1; rw [← h1]; decide))]
  apply pbind_fail
  apply tag_fail
  rw [show chars "@global" = ['@', 'g', 'l', 'o', 'b', 'a', 'l'] from rfl]
  simp [List.isPrefixOf_cons₂]

theorem tag_slash3_fail {i : List Char}
    (h : ∀ c, i.head? = some c → c ≠ '/') : tag (chars "///") i = .fail := by
  apply tag_fail
  cases i with
  | nil => rw [chars_slash3]; simp
  | cons c t =>
    rw [chars_slash3]
    simp [List.isPrefixOf_cons₂, beq_eq_false_iff_ne.mpr (Ne.symm (h c rfl))]

theorem parse_docu_info_fail_head {i : List Char}
    (h : ∀ c, i.head? = some c → c ≠ '/') : parse_docu_info i = .fail := by
  rw [parse_docu_info]
  rw [pbind_ok (opt_fail (parse_empty_line_fail_head h))]
  apply pbind_fail
  rw [alt_second (by rw [parse_param]; exact pbind_fail (tag_slash3_fail h))]
  rw [alt_second (by rw [parse_global]; exact pbind_fail (tag_slash3_fail h))]
  rw [parse_return]
  exact pbind_fail (tag_slash3_fail h)

theorem infoItem_fail_head {i : List Char}
    (h : ∀ c, i.head? = some c → c ≠ '/') : infoItem i = .fail := by
  rw [infoItem]
  exact pbind_fail (parse_docu_info_fail_head h)

theorem parse_docu_info_param_line (nm ds rest : List Char)
    (hn : identOk nm = true) (hd : annOk ds = true) :
    parse_docu_info (chars "/// @param " ++ (nm ++ ' ' :: (ds ++ '\n' :: rest))) =
      .ok ('\n' :: rest) (.Parameter nm ds) := by
  rw [parse_docu_info]
  rw [pbind_ok (opt_fail (show parse_empty_line _ = .fail from by
    rw [show chars "/// @param " ++ (nm ++ ' ' :: (ds ++ '\n' :: rest)) =
        '/' :: '/' :: '/' :: ' ' :: '@' :: ('p' :: 'a' :: 'r' :: 'a' :: 'm' :: ' ' ::
          (nm ++ ' ' :: (ds ++ '\n' :: rest))) from by simp [chars]]
    exact parse_empty_line_fail_at (by decide) (by decide) (by decide)))]
  rw [pbind_ok (alt_first (parse_param_line nm ds rest hn hd))]
  rw [pbind_ok (opt_fail (parse_empty_line_fail_head (by intro c hc; injection hc with h1; rw [← h1]; decide)))]
  rfl

theorem parse_docu_info_ret_line (r rest : List Char) (hr : annOk r = true) :
    parse_docu_info (chars "/// @return " ++ (r ++ '\n' :: rest)) =
      .ok ('\n' :: rest) (.Return r) := by
  rw [parse_docu_info]
  rw [pbind_ok (opt_fail (show parse_empty_line _ = .fail from by
    rw [show chars "/// @return " ++ (r ++ '\n' :: rest) =
        '/' :: '/' :: '/' :: ' ' :: '@' :: ('r' :: 'e' :: 't' :: 'u' :: 'r' :: 'n' :: ' ' ::
          (r ++ '\n' :: rest)) from by simp [chars]]
    exact parse_empty_line_fail_at (by decide) (by decide) (by decide)))]
  have halt : alt parse_param (alt parse_global parse_return)
      (chars "/// @return " ++ (r ++ '\n' :: rest)) = .ok ('\n' :: rest) (.Return r) := by
    rw [show chars "/// @return " ++ (r ++ '\n' :: rest) =
        '/' :: '/' :: '/' :: ' ' :: '@' :: 'r' :: ('e' :: 't' :: 'u' :: 'r' :: 'n' :: ' ' ::
          (r ++ '\n' :: rest)) from by simp [chars]]
    rw [alt_second (parse_param_fail_at_r _), alt_second (parse_global_fail_at_r _)]
    rw [show ('/' :: '/' :: '/' :: ' ' :: '@' :: 'r' :: ('e' :: 't' :: 'u' :: 'r' :: 'n' :: ' ' ::
        (r ++ '\n' :: rest))) = chars "/// @return " ++ (r ++ '\n' :: rest) from by simp [chars]]
    exact parse_return_line r rest hr
  rw [pbind_ok halt]
  rw [pbind_ok (opt_fail (parse_empty_line_fail_head (by
    intro c hc
    injection hc with h1
    rw [← h1]
    decide)))]
  rfl

theorem infoItem_param_line (nm ds rest : List Char)
    (hn : identOk nm = true) (hd : annOk ds = true) :
    infoItem (chars "/// @param " ++ (nm ++ ' ' :: (ds ++ '\n' :: rest))) =
      .ok rest (.Parameter nm ds) := by
  rw [infoItem]
  rw [pbind_ok (parse_docu_info_param_line nm ds rest hn hd)]
  rw [pbind_ok (newlineP_ok rest)]
  rfl

end DaeDocu

namespace DaeDocu

theorem infoItem_ret_line (r rest : List Char) (hr : annOk r = true) :
    infoItem (chars "/// @return " ++ (r ++ '\n' :: rest)) = .ok rest (.Return r) := by
  rw [infoItem]
  rw [pbind_ok (parse_docu_info_ret_line r rest hr)]
  rw [pbind_ok (newlineP_ok rest)]
  rfl

/-! ### `many0` unfolding lemmas -/

theorem many0Go_succ (p : Parser α) (fuel : Nat) (i : List Char) :
    many0Go p (fuel + 1) i =
      match p i with
      | .panic => .panic
      | .fail => .ok i []
      | .ok r a =>
        if r.length < i.length then
          match many0Go p fuel r with
          | .ok r2 l => .ok r2 (a :: l)
          | .fail => .fail
          | .panic => .panic
        else .fail := rfl

theorem many0Go_stop {p : Parser α} {i : List Char} (fuel : Nat)
    (h : p i = .fail) : many0Go p (fuel + 1) i = .ok i [] := by
  rw [many0Go_succ, h]

theorem many0Go_cons {p : Parser α} {i r r2 : List Char} {a : α} {l : List α}
    (fuel : Nat) (h : p i = .ok r a) (hlt : r.length < i.length)
    (hrec : many0Go p fuel r = .ok r2 l) :
    many0Go p (fuel + 1) i = .ok r2 (a :: l) := by
  rw [many0Go_succ, h]
  simp only [if_pos hlt, hrec]

/-! ### The annotation block of a well-formed documentation block -/

theorem many0Go_infos (ps : List (List Char × List Char)) :
    ∀ (fuel : Nat) (ret : Option (List Char)) (rest : List Char),
    (annotLines ps ++ (retText ret ++ rest)).length < fuel →
    (∀ p ∈ ps, (identOk p.1 && annOk p.2) = true) →
    retOk ret = true →
    (∀ c, rest.head? = some c → c ≠ '/') →
    many0Go infoItem fuel (annotLines ps ++ (retText ret ++ rest)) =
      .ok rest (ps.map (fun p => DocuInfo.Parameter p.1 p.2) ++ retInfo ret) := by
  induction ps with
  | nil =>
    intro fuel ret rest hfuel hps hret hrest
    rw [show annotLines [] = [] from rfl, List.nil_append] at hfuel ⊢
    cases ret with
    | none =>
      rw [show retText none = [] from rfl, List.nil_append] at hfuel ⊢
      cases fuel with
      | zero => omega
      | succ k =>
        rw [many0Go_stop k (infoItem_fail_head hrest)]
        rfl
    | some r =>
      have hshape : retText (some r) ++ rest = chars "/// @return " ++ (r ++ '\n' :: rest) := by
        rw [show retText (some r) = chars "/// @return " ++ r ++ chars "\n" from rfl]
        simp [List.append_assoc, chars]
      rw [hshape] at hfuel ⊢
      have hlen11 : (chars "/// @return ").length = 12 := rfl
      cases fuel with
      | zero => omega
      | succ k =>
        have hlt : rest.length < (chars "/// @return " ++ (r ++ '\n' :: rest)).length := by
          simp only [List.length_append, List.length_cons, hlen11]
          omega
        have hk : 1 ≤ k := by
          simp only [List.length_append, List.length_cons, hlen11] at hfuel
          omega
        obtain ⟨k2, hk2⟩ : ∃ k2, k = k2 + 1 := ⟨k - 1, by omega⟩
        subst hk2
        rw [many0Go_cons (k2 + 1) (infoItem_ret_line r rest hret) hlt
          (many0Go_stop k2 (infoItem_fail_head hrest))]
        rfl
  | cons hd tps ih =>
    intro fuel ret rest hfuel hps hret hrest
    obtain ⟨n, d⟩ := hd
    have hnd := hps (n, d) (List.mem_cons_self _ _)
    rw [Bool.and_eq_true] at hnd
    have hshape : annotLines ((n, d) :: tps) ++ (retText ret ++ rest) =
        chars "/// @param " ++ (n ++ ' ' :: (d ++ '\n' ::
          (annotLines tps ++ (retText ret ++ rest)))) := by
      rw [show annotLines ((n, d) :: tps) =
          chars "/// @param " ++ n ++ chars " " ++ d ++ chars "\n" ++ annotLines tps from rfl]
      simp [List.append_assoc, chars]
    rw [hshape] at hfuel ⊢
    have hlen11 : (chars "/// @param ").length = 11 := rfl
    cases fuel with
    | zero => omega
    | succ k =>
      have hlt : (annotLines tps ++ (retText ret ++ rest)).length <
          (chars "/// @param " ++ (n ++ ' ' :: (d ++ '\n' ::
            (annotLines tps ++ (retText ret ++ rest))))).length := by
        simp only [List.length_append, List.length_cons, hlen11]
        omega
      have hkfuel : (annotLines tps ++ (retText ret ++ rest)).length < k := by
        simp only [List.length_append, List.length_cons, hlen11] at hfuel ⊢
        omega
      rw [many0Go_cons k (infoItem_param_line n d _ hnd.1 hnd.2) hlt
        (ih k ret rest hkfuel (fun p hp => hps p (List.mem_cons_of_mem _ hp)) hret hrest)]
      rfl

theorem parse_infos_family (ps : List (List Char × List Char))
    (ret : Option (List Char)) (rest : List Char)
    (hps : ∀ p ∈ ps, (identOk p.1 && annOk p.2) = true)
    (hret : retOk ret = true)
    (hrest : ∀ c, rest.head? = some c → c ≠ '/') :
    parse_infos (annotLines ps ++ (retText ret ++ rest)) =
      .ok rest (ps.map (fun p => DocuInfo.Parameter p.1 p.2) ++ retInfo ret) := by
  rw [parse_infos, many0]
  exact many0Go_infos ps _ ret rest (Nat.lt_succ_self _) hps hret hrest

end DaeDocu

namespace DaeDocu

/-! ### Lemmas about the parameter-list parser -/

theorem charP_fail_ne {c x : Char} {r : List Char} (h : x ≠ c) :
    charP c (x :: r) = .fail := by
  show (if (x == c) = true then PResult.ok r x else PResult.fail) = PResult.fail
  rw [if_neg (by simp [beq_eq_false_iff_ne.mpr h])]

theorem spanOk_mem {s : List Char} (h : spanOk s = true) :
    ∀ c ∈ s, spanChar c = true := fun c hc => List.all_eq_true.mp h c hc

theorem paramElt_mid {s X : List Char} (hs : spanOk s = true) :
    paramElt (s ++ ',' :: X) = .ok (',' :: X) s := by
  rw [paramElt, show chars "," = [','] from rfl]
  rw [show s ++ ',' :: X = s ++ ([','] ++ X) from rfl]
  exact alt_first (take_until_ok (by simp)
    (cleanBefore_of_pred (p := spanChar) (spanOk_mem hs) (by decide)))

theorem paramElt_last {s tail : List Char} (hs : spanOk s = true)
    (htail : tail.all (fun c => !(c == ',')) = true) :
    paramElt (s ++ ')' :: tail) = .ok (')' :: tail) s := by
  rw [paramElt]
  rw [alt_second (take_until_fail (by simp [chars]) ?hcl)]
  case hcl =>
    rw [show chars "," = [','] from rfl]
    apply cleanBefore_of_notMem
    intro c hc
    rcases List.mem_append.mp hc with hm | hm
    · exact ne_of_pred (spanOk_mem hs c hm) (by decide)
    · rcases List.mem_cons.mp hm with he | hm2
      · subst he; decide
      · exact ne_of_pred (p := fun c => !(c == ',')) (List.all_eq_true.mp htail c hm2) (by decide)
  rw [show chars ")" = [')'] from rfl]
  rw [show s ++ ')' :: tail = s ++ ([')'] ++ tail) from rfl]
  refine take_until_ok (by simp) (cleanBefore_of_pred (p := fun c => !(c == ')')) ?_ (by decide))
  intro c hc
  have hsc := spanOk_mem hs c hc
  rw [spanChar] at hsc
  simp only [Bool.and_eq_true] at hsc
  exact hsc.1.1.1.2

theorem sepGo_succ (s f) (fuel : Nat) (i : List Char) (acc : List (List Char)) :
    sepGo s f (fuel + 1) i acc =
      match s i with
      | .panic => .panic
      | .fail => .ok i acc
      | .ok i1 _ =>
        if i1.length == i.length then .fail
        else
          match f i1 with
          | .panic => .panic
          | .fail => .ok i acc
          | .ok i2 a => sepGo s f fuel i2 (acc ++ [a]) := rfl

theorem sepGo_done (fuel : Nat) (acc : List (List Char)) (tail : List Char) :
    sepGo (charP ',') paramElt (fuel + 1) (')' :: tail) acc = .ok (')' :: tail) acc := by
  rw [sepGo_succ, charP_fail_ne (by decide)]

theorem sepGo_step (fuel : Nat) {r i2 s : List Char} {acc : List (List Char)}
    (hlen : (r.length == (',' :: r).length) = false)
    (helt : paramElt r = .ok i2 s) :
    sepGo (charP ',') paramElt (fuel + 1) (',' :: r) acc =
      sepGo (charP ',') paramElt fuel i2 (acc ++ [s]) := by
  rw [sepGo_succ, charP_ok]
  show (if (r.length == (',' :: r).length) = true then PResult.fail
        else
          match paramElt r with
          | PResult.panic => PResult.panic
          | PResult.fail => PResult.ok (',' :: r) acc
          | PResult.ok i2 a => sepGo (charP ',') paramElt fuel i2 (acc ++ [a])) = _
  rw [hlen]
  simp only [Bool.false_eq_true, if_false]
  rw [helt]

theorem sepGo_loop (ps : List (List Char)) :
    ∀ (fuel : Nat) (acc : List (List Char)) (tail : List Char),
    ps ≠ [] →
    (∀ s ∈ ps, spanOk s = true) →
    tail.all (fun c => !(c == ',')) = true →
    (spansText ps ++ ')' :: tail).length + 1 < fuel →
    sepGo (charP ',') paramElt fuel (',' :: (spansText ps ++ ')' :: tail)) acc =
      .ok (')' :: tail) (acc ++ ps) := by
  induction ps with
  | nil => intro _ _ _ hne; exact absurd rfl hne
  | cons s ps2 ih =>
    intro fuel acc tail _ hps htail hfuel
    cases fuel with
    | zero => omega
    | succ k =>
      cases ps2 with
      | nil =>
        rw [show spansText [s] = s from rfl] at hfuel ⊢
        rw [sepGo_step k (by simp) (paramElt_last (hps s (List.mem_cons_self _ _)) htail)]
        cases k with
        | zero =>
          exfalso
          simp only [List.length_cons, List.length_append] at hfuel
          omega
        | succ k2 => exact sepGo_done k2 (acc ++ [s]) tail
      | cons s2 ps3 =>
        rw [show spansText (s :: s2 :: ps3) = s ++ ',' :: spansText (s2 :: ps3) from rfl] at hfuel ⊢
        rw [List.append_assoc, List.cons_append]
        rw [sepGo_step k (by simp) (paramElt_mid (hps s (List.mem_cons_self _ _)))]
        rw [ih k (acc ++ [s]) tail (by simp)
          (fun x hx => hps x (List.mem_cons_of_mem _ hx)) htail
          (by
            simp only [List.length_append, List.length_cons] at hfuel
            simp only [List.length_append, List.length_cons]
            omega)]
        simp

theorem sepList_first {i i1 s : List Char} (helt : paramElt i = .ok i1 s) :
    separated_list0 (charP ',') paramElt i =
      sepGo (charP ',') paramElt (i1.length + 1) i1 [s] := by
  show (match paramElt i with
        | PResult.panic => PResult.panic
        | PResult.fail => PResult.ok i []
        | PResult.ok i1 a => sepGo (charP ',') paramElt (i1.length + 1) i1 [a]) = _
  rw [helt]

theorem sepList_spans (ps : List (List Char)) (tail : List Char)
    (hne : ps ≠ []) (hps : ∀ s ∈ ps, spanOk s = true)
    (htail : tail.all (fun c => !(c == ',')) = true) :
    separated_list0 (charP ',') paramElt (spansText ps ++ ')' :: tail) =
      .ok (')' :: tail) ps := by
  cases ps with
  | nil => exact absurd rfl hne
  | cons s ps2 =>
    cases ps2 with
    | nil =>
      rw [show spansText [s] = s from rfl]
      rw [sepList_first (paramElt_last (hps s (List.mem_cons_self _ _)) htail)]
      rw [show ((')' :: tail).length + 1) = (tail.length + 1) + 1 from by simp]
      exact sepGo_done (tail.length + 1) [s] tail
    | cons s2 ps3 =>
      rw [show spansText (s :: s2 :: ps3) = s ++ ',' :: spansText (s2 :: ps3) from rfl]
      rw [List.append_assoc, List.cons_append]
      rw [sepList_first (paramElt_mid (hps s (List.mem_cons_self _ _)))]
      rw [sepGo_loop (s2 :: ps3) _ [s] tail (by simp)
        (fun x hx => hps x (List.mem_cons_of_mem _ hx)) htail (by simp)]
      simp

end DaeDocu

namespace DaeDocu

/-! ### The signature extractor on well-formed declarations -/

theorem runStep_ok {p : Parser α} {i r : List Char} {a : α} (h : p i = .ok r a) :
    runStep p i = some (r, a) := by
  show (match p i with
        | PResult.ok r a => some (r, a)
        | _ => none) = some (r, a)
  rw [h]

theorem runStep_fail {p : Parser α} {i : List Char} (h : p i = .fail) :
    runStep p i = none := by
  show (match p i with
        | PResult.ok r a => some (r, a)
        | _ => none) = none
  rw [h]

theorem sig_result_if (ps : List (List Char)) :
    (match ps with
     | [[]] => ([] : List (List Char))
     | _ => ps.map trim) = if ps = [[]] then [] else ps.map trim := by
  cases ps with
  | nil => simp
  | cons a l =>
    cases a with
    | nil =>
      cases l with
      | nil => simp
      | cons b m => simp
    | cons c cs => simp

theorem sig_family (kw ty nm : List Char) (ps : List (List Char)) (tail : List Char)
    (hkw : identOk kw = true) (hty : identOk ty = true) (hnm : identOk nm = true)
    (hne : ps ≠ []) (hps : ∀ s ∈ ps, spanOk s = true)
    (htail : tail.all (fun c => !(c == ',')) = true) :
    parse_function_signature
      (kw ++ ' ' :: (ty ++ ' ' :: (nm ++ '(' :: (spansText ps ++ ')' :: tail)))) =
      some (nm, if ps = [[]] then [] else ps.map trim) := by
  rw [parse_function_signature]
  rw [runStep_ok (identifier_ok hkw (by decide))]
  simp only [Option.bind_eq_bind, Option.some_bind]
  rw [runStep_ok (multispace1_single
    (head_notMS_append _ (identOk_ne_nil hty) (identOk_head_notMS hty)))]
  simp only [Option.bind_eq_bind, Option.some_bind]
  rw [runStep_ok (identifier_ok hty (by decide))]
  simp only [Option.bind_eq_bind, Option.some_bind]
  rw [runStep_ok (multispace1_single
    (head_notMS_append _ (identOk_ne_nil hnm) (identOk_head_notMS hnm)))]
  simp only [Option.bind_eq_bind, Option.some_bind]
  rw [runStep_ok (identifier_ok hnm (by decide))]
  simp only [Option.bind_eq_bind, Option.some_bind]
  rw [runStep_ok (multispace0_skip (by intro c hc; injection hc with h1; rw [← h1]; decide))]
  simp only [Option.bind_eq_bind, Option.some_bind]
  rw [show ('(' :: (spansText ps ++ ')' :: tail)) =
      chars "(" ++ (spansText ps ++ ')' :: tail) from rfl]
  rw [runStep_ok (tag_ok _ _)]
  simp only [Option.bind_eq_bind, Option.some_bind]
  rw [runStep_ok (sepList_spans ps tail hne hps htail)]
  simp only [Option.bind_eq_bind, Option.some_bind]
  rw [sig_result_if]

end DaeDocu

namespace DaeDocu

/-! ### The description parser on structured inputs -/

theorem parse_description_eq (i : List Char) :
    parse_description i =
      match alt (take_until (chars "///\n")) (take_until (chars "func")) i with
      | .ok rest desc =>
        if (chars "///").isPrefixOf desc then
          if trim (desc.drop 3) = [] then .ok rest none
          else .ok rest (some (trim (desc.drop 3)))
        else .panic
      | .fail => .fail
      | .panic => .panic := rfl

theorem parse_description_blank {d rest : List Char}
    (hclean : cleanBefore (chars "///\n") (chars "///" ++ d) (chars "///\n" ++ rest) = true) :
    parse_description ((chars "///" ++ d) ++ (chars "///\n" ++ rest)) =
      .ok (chars "///\n" ++ rest) (if trim d = [] then none else some (trim d)) := by
  rw [parse_description_eq]
  rw [alt_first (take_until_ok (by simp [chars]) hclean)]
  show (if (chars "///").isPrefixOf (chars "///" ++ d) = true then
          if trim ((chars "///" ++ d).drop 3) = [] then
            PResult.ok (chars "///\n" ++ rest) none
          else PResult.ok (chars "///\n" ++ rest) (some (trim ((chars "///" ++ d).drop 3)))
        else PResult.panic) = _
  rw [if_pos (isPrefixOf_self_append _ _)]
  rw [show (chars "///" ++ d).drop 3 = d from by
    rw [show (3 : Nat) = (chars "///").length from rfl, List.drop_left]]
  by_cases h : trim d = []
  · rw [if_pos h, if_pos h]
  · rw [if_neg h, if_neg h]

theorem parse_description_func {pre rest : List Char}
    (h1 : cleanBefore (chars "///\n") ((chars "///" ++ pre) ++ (chars "func" ++ rest)) [] = true)
    (h2 : cleanBefore (chars "func") (chars "///" ++ pre) (chars "func" ++ rest) = true) :
    parse_description ((chars "///" ++ pre) ++ (chars "func" ++ rest)) =
      .ok (chars "func" ++ rest) (if trim pre = [] then none else some (trim pre)) := by
  rw [parse_description_eq]
  rw [alt_second (take_until_fail (by simp [chars]) h1)]
  rw [take_until_ok (by simp [chars]) h2]
  show (if (chars "///").isPrefixOf (chars "///" ++ pre) = true then
          if trim ((chars "///" ++ pre).drop 3) = [] then
            PResult.ok (chars "func" ++ rest) none
          else PResult.ok (chars "func" ++ rest) (some (trim ((chars "///" ++ pre).drop 3)))
        else PResult.panic) = _
  rw [if_pos (isPrefixOf_self_append _ _)]
  rw [show (chars "///" ++ pre).drop 3 = pre from by
    rw [show (3 : Nat) = (chars "///").length from rfl, List.drop_left]]
  by_cases h : trim pre = []
  · rw [if_pos h, if_pos h]
  · rw [if_neg h, if_neg h]

/-! ### `parse_func` on structured inputs -/

theorem parse_func_ok {pre rest : List Char}
    (hclean : cleanBefore (chars "\x7b\x7d;") pre (chars "\x7b\x7d;" ++ rest) = true) :
    parse_func (pre ++ (chars "\x7b\x7d;" ++ rest)) = .ok rest pre := by
  rw [parse_func]
  rw [pbind_ok (take_until_ok (by simp [chars]) hclean)]
  rw [pbind_ok (tag_ok _ _)]
  rfl

theorem parse_func_fail {i : List Char}
    (h : cleanBefore (chars "\x7b\x7d;") i [] = true) : parse_func i = .fail := by
  rw [parse_func]
  exact pbind_fail (take_until_fail (by simp [chars]) h)

/-! ### The empty-comment-line run after the description -/

theorem many0_pel_one {X : List Char} (hX : parse_empty_line X = .fail) :
    many0 parse_empty_line ('/' :: '/' :: '/' :: '\n' :: X) = .ok X [()] := by
  rw [many0]
  show many0Go parse_empty_line (X.length + 4 + 1) ('/' :: '/' :: '/' :: '\n' :: X) = _
  rw [many0Go_cons (X.length + 4) (parse_empty_line_ok X) (by simp; omega)
    (many0Go_stop (X.length + 3) hX)]

theorem cb_slash3 (Y : List Char) :
    cleanBefore (chars "///\n") (chars "///") (' ' :: Y) = true := by
  rw [chars_slash3nl, chars_slash3]
  simp [cleanBefore, List.isPrefixOf_cons₂]

end DaeDocu

namespace DaeDocu

/-! ### Parsing one whole well-formed block -/

theorem pel_fail_block (ps : List (List Char × List Char)) (ret : Option (List Char))
    (F : List Char) (hF : parse_empty_line F = .fail) :
    parse_empty_line (annotLines ps ++ (retText ret ++ F)) = .fail := by
  cases ps with
  | cons hd t =>
    obtain ⟨n, d⟩ := hd
    exact parse_empty_line_fail_at (by decide) (by decide) (by decide)
  | nil =>
    cases ret with
    | some r => exact parse_empty_line_fail_at (by decide) (by decide) (by decide)
    | none => simpa using hF

theorem blockOk_parts {b : Block} (hb : blockOk b = true) :
    descOk b.desc = true ∧ identOk b.name = true ∧
    (∀ p ∈ b.params, (identOk p.1 && annOk p.2) = true) ∧ retOk b.ret = true := by
  rw [blockOk, Bool.and_eq_true, Bool.and_eq_true, Bool.and_eq_true] at hb
  exact ⟨hb.1.1.1, hb.1.1.2, List.all_eq_true.mp hb.1.2, hb.2⟩

theorem parse_doc_comment_block (b : Block) (rest : List Char) (hb : blockOk b = true) :
    parse_doc_comment (renderBlock b ++ rest) = .ok ('\n' :: rest) (dcOf b) := by
  obtain ⟨hdesc, hname, hps, hret⟩ := blockOk_parts hb
  obtain ⟨hdg, hdne, hdh, hdl⟩ := descOk_parts hdesc
  have hdgm := goodText_mem hdg
  have hshape : renderBlock b ++ rest =
      (chars "///" ++ (' ' :: (b.desc ++ ['\n']))) ++
        (chars "///\n" ++ (annotLines b.params ++ (retText b.ret ++
          (chars "func void " ++ (b.name ++ ('(' :: ')' :: ' ' ::
            (chars "\x7b\x7d;" ++ ('\n' :: rest)))))))) := by
    rw [renderBlock]
    simp only [show chars "/// " = ['/', '/', '/', ' '] from rfl,
      show chars "\n///\n" = ['\n', '/', '/', '/', '\n'] from rfl,
      show chars "///" = ['/', '/', '/'] from rfl,
      show chars "///\n" = ['/', '/', '/', '\n'] from rfl,
      show chars "() \x7b\x7d;\n" = ['(', ')', ' ', '\x7b', '\x7d', ';', '\n'] from rfl,
      show chars "\x7b\x7d;" = ['\x7b', '\x7d', ';'] from rfl,
      List.append_assoc, List.cons_append, List.nil_append]
  rw [hshape, parse_doc_comment]
  rw [pbind_ok (opt_ok (multispace0_skip (by
    intro c hc
    rw [show ((chars "///" ++ (' ' :: (b.desc ++ ['\n']))) ++
        (chars "///\n" ++ (annotLines b.params ++ (retText b.ret ++
          (chars "func void " ++ (b.name ++ ('(' :: ')' :: ' ' ::
            (chars "\x7b\x7d;" ++ ('\n' :: rest))))))))).head? = some '/' from rfl] at hc
    injection hc with h1
    rw [← h1]
    decide)))]
  have hcleandesc : cleanBefore (chars "///\n") (chars "///" ++ (' ' :: (b.desc ++ ['\n'])))
      (chars "///\n" ++ (annotLines b.params ++ (retText b.ret ++
        (chars "func void " ++ (b.name ++ ('(' :: ')' :: ' ' ::
          (chars "\x7b\x7d;" ++ ('\n' :: rest)))))))) = true := by
    rw [cleanBefore_append, Bool.and_eq_true]
    constructor
    · rw [show (' ' :: (b.desc ++ ['\n'])) ++ (chars "///\n" ++ (annotLines b.params ++
          (retText b.ret ++ (chars "func void " ++ (b.name ++ ('(' :: ')' :: ' ' ::
            (chars "\x7b\x7d;" ++ ('\n' :: rest)))))))) =
          ' ' :: ((b.desc ++ ['\n']) ++ (chars "///\n" ++ (annotLines b.params ++
            (retText b.ret ++ (chars "func void " ++ (b.name ++ ('(' :: ')' :: ' ' ::
              (chars "\x7b\x7d;" ++ ('\n' :: rest))))))))) from rfl]
      exact cb_slash3 _
    · rw [chars_slash3nl]
      apply cleanBefore_of_notMem
      intro c hc
      rcases List.mem_cons.mp hc with he | hm
      · subst he; decide
      · rcases List.mem_append.mp hm with hd2 | hnl
        · exact ne_of_pred (hdgm c hd2) (by decide)
        · have : c = '\n' := by simpa using hnl
          subst this; decide
  have hdesc2 : parse_description ((chars "///" ++ (' ' :: (b.desc ++ ['\n']))) ++
      (chars "///\n" ++ (annotLines b.params ++ (retText b.ret ++
        (chars "func void " ++ (b.name ++ ('(' :: ')' :: ' ' ::
          (chars "\x7b\x7d;" ++ ('\n' :: rest))))))))) =
      .ok (chars "///\n" ++ (annotLines b.params ++ (retText b.ret ++
        (chars "func void " ++ (b.name ++ ('(' :: ')' :: ' ' ::
          (chars "\x7b\x7d;" ++ ('\n' :: rest)))))))) (some b.desc) := by
    rw [parse_description_blank hcleandesc]
    rw [trim_sp_nl hdne hdh hdl]
    rw [if_neg hdne]
  rw [pbind_ok hdesc2]
  have hFpel : parse_empty_line (chars "func void " ++ (b.name ++ ('(' :: ')' :: ' ' ::
      (chars "\x7b\x7d;" ++ ('\n' :: rest))))) = .fail := by
    apply parse_empty_line_fail_head
    intro c hc
    rw [show (chars "func void " ++ (b.name ++ ('(' :: ')' :: ' ' ::
        (chars "\x7b\x7d;" ++ ('\n' :: rest))))).head? = some 'f' from rfl] at hc
    injection hc with h1
    rw [← h1]
    decide
  rw [show chars "///\n" ++ (annotLines b.params ++ (retText b.ret ++
      (chars "func void " ++ (b.name ++ ('(' :: ')' :: ' ' ::
        (chars "\x7b\x7d;" ++ ('\n' :: rest))))))) =
      '/' :: '/' :: '/' :: '\n' :: (annotLines b.params ++ (retText b.ret ++
      (chars "func void " ++ (b.name ++ ('(' :: ')' :: ' ' ::
        (chars "\x7b\x7d;" ++ ('\n' :: rest))))))) from rfl]
  rw [pbind_ok (many0_pel_one (pel_fail_block b.params b.ret _ hFpel))]
  rw [pbind_ok (parse_infos_family b.params b.ret _ hps hret (by
    intro c hc
    rw [show (chars "func void " ++ (b.name ++ ('(' :: ')' :: ' ' ::
        (chars "\x7b\x7d;" ++ ('\n' :: rest))))).head? = some 'f' from rfl] at hc
    injection hc with h1
    rw [← h1]
    decide))]
  have hFshape : chars "func void " ++ (b.name ++ ('(' :: ')' :: ' ' ::
      (chars "\x7b\x7d;" ++ ('\n' :: rest)))) =
      (chars "func void " ++ (b.name ++ ['(', ')', ' '])) ++
        (chars "\x7b\x7d;" ++ ('\n' :: rest)) := by
    simp only [List.append_assoc, List.cons_append, List.nil_append]
  rw [hFshape]
  have hfclean : cleanBefore (chars "\x7b\x7d;")
      (chars "func void " ++ (b.name ++ ['(', ')', ' ']))
      (chars "\x7b\x7d;" ++ ('\n' :: rest)) = true := by
    rw [chars_term]
    apply cleanBefore_of_notMem
    intro c hc
    rcases List.mem_append.mp hc with hm | hm
    · exact (show ∀ x ∈ chars "func void ", x ≠ '\x7b' from by decide) c hm
    · rcases List.mem_append.mp hm with hm2 | hm2
      · exact ne_of_pred (identOk_mem hname c hm2) (by decide)
      · exact (show ∀ x ∈ ['(', ')', ' '], x ≠ '\x7b' from by decide) c hm2
  rw [pbind_ok (parse_func_ok hfclean)]
  have hsig : parse_function_signature
      (chars "func void " ++ (b.name ++ ['(', ')', ' '])) = some (b.name, []) := by
    rw [show chars "func void " ++ (b.name ++ ['(', ')', ' ']) =
        chars "func" ++ ' ' :: (chars "void" ++ ' ' :: (b.name ++ '(' ::
          (spansText [[]] ++ ')' :: [' ']))) from by
      simp only [show chars "func void " = ['f', 'u', 'n', 'c', ' ', 'v', 'o', 'i', 'd', ' '] from rfl,
        show chars "func" = ['f', 'u', 'n', 'c'] from rfl,
        show chars "void" = ['v', 'o', 'i', 'd'] from rfl,
        show spansText [[]] = [] from rfl,
        List.append_assoc, List.cons_append, List.nil_append]]
    rw [sig_family (chars "func") (chars "void") b.name [[]] [' ']
      (by decide) (by decide) hname (by simp)
      (by intro s hs; rw [show s = [] from by simpa using hs]; rfl)
      (by decide)]
    simp
  rw [hsig]
  rfl

end DaeDocu

namespace DaeDocu

/-! ### The whole pipeline on well-formed inputs -/

theorem multispace0_nl {Y : List Char}
    (h : ∀ c, Y.head? = some c → isMS c = false) :
    multispace0 ('\n' :: Y) = .ok Y ['\n'] := by
  cases Y with
  | nil => rfl
  | cons c t =>
    rw [multispace0, takeWhileP]
    rw [List.dropWhile_cons_of_pos (by decide),
      List.dropWhile_cons_of_neg (by simp [h c rfl]),
      List.takeWhile_cons_of_pos (by decide),
      List.takeWhile_cons_of_neg (by simp [h c rfl])]

theorem renderInput_head_notMS (bs : List Block) :
    ∀ c, (renderInput bs).head? = some c → isMS c = false := by
  cases bs with
  | nil => intro c hc; simp [renderInput] at hc
  | cons b t =>
    intro c hc
    rw [show (renderInput (b :: t)).head? = some '/' from rfl] at hc
    injection hc with h1
    rw [← h1]
    decide

theorem renderBlock_len_pos (b : Block) : 0 < (renderBlock b).length := by
  rw [renderBlock]
  simp only [List.length_append, show (chars "/// ").length = 4 from rfl]
  omega

theorem blockItem_ok (b : Block) (bs2 : List Block) (hb : blockOk b = true) :
    blockItem (renderInput (b :: bs2)) = .ok (renderInput bs2) (dcOf b) := by
  rw [blockItem]
  rw [show renderInput (b :: bs2) = renderBlock b ++ renderInput bs2 from rfl]
  rw [pbind_ok (multispace0_skip (by
    intro c hc
    rw [show (renderBlock b ++ renderInput bs2).head? = some '/' from rfl] at hc
    injection hc with h1
    rw [← h1]
    decide))]
  rw [pbind_ok (parse_doc_comment_block b (renderInput bs2) hb)]
  rw [pbind_ok (multispace0_nl (renderInput_head_notMS bs2))]
  rfl

theorem blockItem_fail_nil : blockItem [] = .fail := by decide

theorem many0Go_blocks (bs : List Block) :
    ∀ fuel, (renderInput bs).length < fuel →
    (∀ b ∈ bs, blockOk b = true) →
    many0Go blockItem fuel (renderInput bs) = .ok [] (bs.map dcOf) := by
  induction bs with
  | nil =>
    intro fuel hf _
    cases fuel with
    | zero => omega
    | succ k => exact many0Go_stop k blockItem_fail_nil
  | cons b t ih =>
    intro fuel hf hbs
    cases fuel with
    | zero => omega
    | succ k =>
      have hlt : (renderInput t).length < (renderInput (b :: t)).length := by
        rw [show renderInput (b :: t) = renderBlock b ++ renderInput t from rfl,
          List.length_append]
        have := renderBlock_len_pos b
        omega
      rw [many0Go_cons k (blockItem_ok b t (hbs b (List.mem_cons_self _ _))) hlt
        (ih k (by omega) (fun x hx => hbs x (List.mem_cons_of_mem _ hx)))]
      rfl

theorem parse_doc_comments_family (bs : List Block)
    (hbs : ∀ b ∈ bs, blockOk b = true) :
    parse_doc_comments (renderInput bs) = .ok [] (bs.map dcOf) := by
  rw [parse_doc_comments, many0]
  exact many0Go_blocks bs _ (Nat.lt_succ_self _) hbs

theorem parse_family (bs : List Block) (hbs : ∀ b ∈ bs, blockOk b = true) :
    parse (renderInput bs) = .output (mdOf bs) := by
  show (match parse_doc_comments (renderInput bs) with
        | PResult.ok _ dcs => RunResult.output (List.intercalate (chars "\n") (dcs.map generate_md))
        | PResult.fail => RunResult.failure
        | PResult.panic => RunResult.panicked) = _
  rw [parse_doc_comments_family bs hbs]
  show RunResult.output ((chars "\n").intercalate (List.map generate_md (List.map dcOf bs))) = _
  rw [List.map_map, mdOf]
  rfl

end DaeDocu

namespace DaeDocu

/-! ### Line structure of the rendered Markdown -/

theorem linesOf_append_line {l : List Char} (r : List Char)
    (hl : ∀ c ∈ l, c ≠ '\n') : linesOf (l ++ '\n' :: r) = l :: linesOf r := by
  induction l with
  | nil => rw [List.nil_append, linesOf, if_pos rfl]
  | cons c t ih =>
    rw [List.cons_append, linesOf, if_neg (hl c (List.mem_cons_self _ _))]
    rw [ih fun x hx => hl x (List.mem_cons_of_mem _ hx)]

theorem unlines_append (x y : List (List Char)) :
    unlines (x ++ y) = unlines x ++ unlines y := by
  induction x with
  | nil => rfl
  | cons l t ih =>
    rw [List.cons_append]
    rw [show unlines (l :: (t ++ y)) = l ++ '\n' :: unlines (t ++ y) from rfl]
    rw [show unlines (l :: t) = l ++ '\n' :: unlines t from rfl]
    rw [ih, List.append_assoc, List.cons_append]

theorem linesOf_unlines_append (ls : List (List Char)) (r : List Char)
    (h : ∀ l ∈ ls, ∀ c ∈ l, c ≠ '\n') :
    linesOf (unlines ls ++ r) = ls ++ linesOf r := by
  induction ls with
  | nil => rfl
  | cons l t ih =>
    rw [show unlines (l :: t) = l ++ '\n' :: unlines t from rfl]
    rw [List.append_assoc, List.cons_append]
    rw [linesOf_append_line _ (h l (List.mem_cons_self _ _))]
    rw [ih fun x hx => h x (List.mem_cons_of_mem _ hx)]
    rfl

theorem any_param_map (ps : List (List Char × List Char)) :
    (ps.map fun p => DocuInfo.Parameter p.1 p.2).any isParam = !ps.isEmpty := by
  cases ps with
  | nil => rfl
  | cons p t => simp [isParam]

theorem any_ret_map (ps : List (List Char × List Char)) :
    (ps.map fun p => DocuInfo.Parameter p.1 p.2).any isRet = false := by
  induction ps with
  | nil => rfl
  | cons p t ih => simp [isRet, ih]

theorem any_global_map (ps : List (List Char × List Char)) :
    (ps.map fun p => DocuInfo.Parameter p.1 p.2).any isGlobal = false := by
  induction ps with
  | nil => rfl
  | cons p t ih => simp [isGlobal, ih]

theorem infosOf_any_param (b : Block) : (infosOf b).any isParam = !b.params.isEmpty := by
  rw [infosOf, List.any_append, any_param_map]
  have h2 : (retInfo b.ret).any isParam = false := by
    cases hb : b.ret <;> simp [retInfo, isParam]
  rw [h2, Bool.or_false]

theorem infosOf_any_global (b : Block) : (infosOf b).any isGlobal = false := by
  rw [infosOf, List.any_append, any_global_map]
  have h2 : (retInfo b.ret).any isGlobal = false := by
    cases hb : b.ret <;> simp [retInfo, isGlobal]
  rw [h2, Bool.or_false]

theorem infosOf_any_ret (b : Block) : (infosOf b).any isRet = b.ret.isSome := by
  rw [infosOf, List.any_append, any_ret_map]
  have h2 : (retInfo b.ret).any isRet = b.ret.isSome := by
    cases hb : b.ret <;> simp [retInfo, isRet]
  rw [h2, Bool.false_or]

theorem paramLines_map (ps : List (List Char × List Char)) (rest : List DocuInfo)
    (hrest : paramLines rest = []) :
    paramLines (ps.map (fun p => DocuInfo.Parameter p.1 p.2) ++ rest) =
      unlines (paramItemsLines ps) := by
  induction ps with
  | nil => simpa using hrest
  | cons p t ih =>
    obtain ⟨n, d⟩ := p
    rw [List.map_cons, List.cons_append]
    rw [show paramLines (DocuInfo.Parameter n d ::
        ((t.map fun p => DocuInfo.Parameter p.1 p.2) ++ rest)) =
        chars "    - `#!dae " ++ n ++ chars "` - " ++ d ++ chars "\n" ++
          paramLines ((t.map fun p => DocuInfo.Parameter p.1 p.2) ++ rest) from rfl]
    rw [ih]
    rw [show paramItemsLines ((n, d) :: t) = itemLine n d :: paramItemsLines t from rfl]
    rw [show unlines (itemLine n d :: paramItemsLines t) =
        itemLine n d ++ '\n' :: unlines (paramItemsLines t) from rfl]
    rw [itemLine]
    simp [chars, List.append_assoc]

theorem paramLines_retInfo (ret : Option (List Char)) : paramLines (retInfo ret) = [] := by
  cases ret <;> rfl

theorem globalLines_map (ps : List (List Char × List Char)) (rest : List DocuInfo)
    (h : globalLines rest = []) :
    globalLines (ps.map (fun p => DocuInfo.Parameter p.1 p.2) ++ rest) = [] := by
  induction ps with
  | nil => simpa using h
  | cons p t ih =>
    obtain ⟨n, d⟩ := p
    rw [List.map_cons, List.cons_append]
    rw [show globalLines (DocuInfo.Parameter n d ::
        ((t.map fun p => DocuInfo.Parameter p.1 p.2) ++ rest)) =
        globalLines ((t.map fun p => DocuInfo.Parameter p.1 p.2) ++ rest) from rfl]
    exact ih

theorem globalLines_infosOf (b : Block) : globalLines (infosOf b) = [] := by
  rw [infosOf]
  exact globalLines_map _ _ (by cases b.ret <;> rfl)

theorem firstReturnLine_map (ps : List (List Char × List Char)) (rest : List DocuInfo) :
    firstReturnLine (ps.map (fun p => DocuInfo.Parameter p.1 p.2) ++ rest) =
      firstReturnLine rest := by
  induction ps with
  | nil => rfl
  | cons p t ih =>
    obtain ⟨n, d⟩ := p
    rw [List.map_cons, List.cons_append]
    rw [show firstReturnLine (DocuInfo.Parameter n d ::
        ((t.map fun p => DocuInfo.Parameter p.1 p.2) ++ rest)) =
        firstReturnLine ((t.map fun p => DocuInfo.Parameter p.1 p.2) ++ rest) from rfl]
    exact ih

theorem firstReturnLine_infosOf (b : Block) (r : List Char) (hr : b.ret = some r) :
    firstReturnLine (infosOf b) =
      chars "    The function returns " ++ r ++ chars "\n" := by
  rw [infosOf, hr, firstReturnLine_map]
  rfl

end DaeDocu

namespace DaeDocu

theorem generate_md_dcOf (b : Block) :
    generate_md (dcOf b) = unlines (fragLines b) := by
  rw [generate_md]
  rw [show (dcOf b).description = some b.desc from rfl,
    show (dcOf b).infos = infosOf b from rfl,
    show (dcOf b).func_string = chars "func void " ++ b.name ++ chars "() " from rfl,
    show (dcOf b).func_name = b.name from rfl]
  rw [infosOf_any_param, infosOf_any_global, infosOf_any_ret]
  rw [infosOf]
  rw [globalLines_map _ _ (by cases b.ret <;> rfl)]
  rw [firstReturnLine_map]
  rw [paramLines_map _ _ (paramLines_retInfo b.ret)]
  rw [fragLines]
  cases hps : b.params with
  | nil =>
    cases hret : b.ret with
    | none =>
      simp [chars, unlines, unlines_append, retInfo, firstReturnLine, List.append_assoc]
    | some r =>
      simp [chars, unlines, unlines_append, retInfo, firstReturnLine, List.append_assoc]
  | cons p t =>
    cases hret : b.ret with
    | none =>
      simp [chars, unlines, unlines_append, retInfo, firstReturnLine, paramItemsLines,
        itemLine, List.append_assoc]
    | some r =>
      simp [chars, unlines, unlines_append, retInfo, firstReturnLine, paramItemsLines,
        itemLine, List.append_assoc]

end DaeDocu

namespace DaeDocu

theorem not_heading_cons {c : Char} {l : List Char} (h : c ≠ '#') :
    ((chars "### ").isPrefixOf (c :: l)) = false := by
  rw [show chars "### " = ['#', '#', '#', ' '] from rfl]
  simp [List.isPrefixOf_cons₂, beq_eq_false_iff_ne.mpr (Ne.symm h)]

theorem heading_line_isPrefix (n y : List Char) :
    (chars "### ").isPrefixOf ((chars "### `" ++ n) ++ y) = true := by
  rw [show (chars "### `" ++ n) ++ y = chars "### " ++ ('`' :: (n ++ y)) from rfl]
  exact isPrefixOf_self_append _ _

theorem filter_paramItemsLines (ps : List (List Char × List Char)) :
    (paramItemsLines ps).filter (fun l => (chars "### ").isPrefixOf l) = [] := by
  induction ps with
  | nil => rfl
  | cons p t ih =>
    obtain ⟨n, d⟩ := p
    rw [show paramItemsLines ((n, d) :: t) = itemLine n d :: paramItemsLines t from rfl]
    rw [List.filter_cons]
    rw [show ((chars "### ").isPrefixOf (itemLine n d)) = false from not_heading_cons (by decide)]
    simpa using ih

theorem filter_fragLines (b : Block) :
    (fragLines b).filter (fun l => (chars "### ").isPrefixOf l) = [headingOf b] := by
  rw [fragLines, headingOf]
  rw [List.filter_append, List.filter_append]
  have h6 : List.filter (fun l => (chars "### ").isPrefixOf l)
      [chars "### `" ++ b.name ++ chars "`",
       chars "!!! function \"`" ++ b.name ++ chars "`\"",
       chars "    " ++ b.desc,
       chars "    ```dae",
       chars "    func void " ++ b.name ++ chars "() ",
       chars "    ```"] = [chars "### `" ++ b.name ++ chars "`"] := by
    simp only [List.filter_cons, List.filter_nil,
      heading_line_isPrefix b.name (chars "`"),
      show ((chars "### ").isPrefixOf (chars "!!! function \"`" ++ b.name ++ chars "`\"")) = false from
        not_heading_cons (by decide),
      show ((chars "### ").isPrefixOf (chars "    " ++ b.desc)) = false from
        not_heading_cons (by decide),
      show ((chars "### ").isPrefixOf (chars "    ```dae")) = false from by decide,
      show ((chars "### ").isPrefixOf (chars "    func void " ++ b.name ++ chars "() ")) = false from
        not_heading_cons (by decide),
      show ((chars "### ").isPrefixOf (chars "    ```")) = false from by decide]
    simp
  have hP : List.filter (fun l => (chars "### ").isPrefixOf l)
      (if b.params = [] then []
       else [[], chars "    **Parameters**  ", []] ++ paramItemsLines b.params) = [] := by
    by_cases hp : b.params = []
    · rw [if_pos hp]; rfl
    · rw [if_neg hp, List.filter_append, filter_paramItemsLines]
      simp only [List.filter_cons, List.filter_nil,
        show ((chars "### ").isPrefixOf ([] : List Char)) = false from by decide,
        show ((chars "### ").isPrefixOf (chars "    **Parameters**  ")) = false from by decide]
      simp
  have hR : List.filter (fun l => (chars "### ").isPrefixOf l)
      (match b.ret with
       | some r => [[], chars "    **Return value**  ", chars "    The function returns " ++ r]
       | none => []) = [] := by
    cases b.ret with
    | none => rfl
    | some r =>
      simp only [List.filter_cons, List.filter_nil,
        show ((chars "### ").isPrefixOf ([] : List Char)) = false from by decide,
        show ((chars "### ").isPrefixOf (chars "    **Return value**  ")) = false from by decide,
        show ((chars "### ").isPrefixOf (chars "    The function returns " ++ r)) = false from
          not_heading_cons (by decide)]
      simp
  rw [h6, hP, hR]
  simp

end DaeDocu

namespace DaeDocu

theorem paramItemsLines_mem {ps : List (List Char × List Char)} {l : List Char}
    (h : l ∈ paramItemsLines ps) : ∃ p ∈ ps, l = itemLine p.1 p.2 := by
  induction ps with
  | nil => simp [paramItemsLines] at h
  | cons p t ih =>
    obtain ⟨n, d⟩ := p
    rw [show paramItemsLines ((n, d) :: t) = itemLine n d :: paramItemsLines t from rfl] at h
    rcases List.mem_cons.mp h with he | hm
    · exact ⟨(n, d), List.mem_cons_self _ _, he⟩
    · obtain ⟨q, hq, he⟩ := ih hm
      exact ⟨q, List.mem_cons_of_mem _ hq, he⟩

theorem fragLines_no_nl (b : Block) (hb : blockOk b = true) :
    ∀ l ∈ fragLines b, ∀ c ∈ l, c ≠ '\n' := by
  obtain ⟨hdesc, hname, hps, hret⟩ := blockOk_parts hb
  obtain ⟨hdg, _, _, _⟩ := descOk_parts hdesc
  have hdgm := goodText_mem hdg
  have hnm := identOk_mem hname
  intro l hl c hc
  rw [fragLines] at hl
  rcases List.mem_append.mp hl with hl1 | hlR
  · rcases List.mem_append.mp hl1 with hl6 | hlP
    · -- one of the six fixed lines
      simp only [List.mem_cons, List.not_mem_nil, or_false] at hl6
      rcases hl6 with he | he | he | he | he | he <;> subst he
      · rcases List.mem_append.mp hc with hm | hm
        · rcases List.mem_append.mp hm with hm2 | hm2
          · exact (show ∀ x ∈ chars "### `", x ≠ '\n' from by decide) c hm2
          · exact ne_of_pred (identChar_good (hnm c hm2)) (by decide)
        · exact (show ∀ x ∈ chars "`", x ≠ '\n' from by decide) c hm
      · rcases List.mem_append.mp hc with hm | hm
        · rcases List.mem_append.mp hm with hm2 | hm2
          · exact (show ∀ x ∈ chars "!!! function \"`", x ≠ '\n' from by decide) c hm2
          · exact ne_of_pred (identChar_good (hnm c hm2)) (by decide)
        · exact (show ∀ x ∈ chars "`\"", x ≠ '\n' from by decide) c hm
      · rcases List.mem_append.mp hc with hm | hm
        · exact (show ∀ x ∈ chars "    ", x ≠ '\n' from by decide) c hm
        · exact ne_of_pred (hdgm c hm) (by decide)
      · exact (show ∀ x ∈ chars "    ```dae", x ≠ '\n' from by decide) c hc
      · rcases List.mem_append.mp hc with hm | hm
        · rcases List.mem_append.mp hm with hm2 | hm2
          · exact (show ∀ x ∈ chars "    func void ", x ≠ '\n' from by decide) c hm2
          · exact ne_of_pred (identChar_good (hnm c hm2)) (by decide)
        · exact (show ∀ x ∈ chars "() ", x ≠ '\n' from by decide) c hm
      · exact (show ∀ x ∈ chars "    ```", x ≠ '\n' from by decide) c hc
    · -- parameters section
      by_cases hp : b.params = []
      · rw [if_pos hp] at hlP
        simp at hlP
      · rw [if_neg hp] at hlP
        rcases List.mem_append.mp hlP with hhdr | hitem
        · simp only [List.mem_cons, List.not_mem_nil, or_false] at hhdr
          rcases hhdr with he | he | he <;> subst he
          · simp at hc
          · exact (show ∀ x ∈ chars "    **Parameters**  ", x ≠ '\n' from by decide) c hc
          · simp at hc
        · obtain ⟨q, hq, he⟩ := paramItemsLines_mem hitem
          subst he
          have hq2 := hps q hq
          rw [Bool.and_eq_true] at hq2
          obtain ⟨hqg, _, _⟩ := annOk_parts hq2.2
          rw [itemLine] at hc
          rcases List.mem_append.mp hc with hm | hm
          · rcases List.mem_append.mp hm with hm2 | hm2
            · rcases List.mem_append.mp hm2 with hm3 | hm3
              · exact (show ∀ x ∈ chars "    - `#!dae ", x ≠ '\n' from by decide) c hm3
              · exact ne_of_pred (identChar_good (identOk_mem hq2.1 c hm3)) (by decide)
            · exact (show ∀ x ∈ chars "` - ", x ≠ '\n' from by decide) c hm2
          · exact ne_of_pred (hqg c hm) (by decide)
  · -- return section
    cases hrv : b.ret with
    | none => rw [hrv] at hlR; simp at hlR
    | some r =>
      rw [hrv] at hlR hret
      obtain ⟨hrg, _, _⟩ := annOk_parts hret
      simp only [List.mem_cons, List.not_mem_nil, or_false] at hlR
      rcases hlR with he | he | he <;> subst he
      · simp at hc
      · exact (show ∀ x ∈ chars "    **Return value**  ", x ≠ '\n' from by decide) c hc
      · rcases List.mem_append.mp hc with hm | hm
        · exact (show ∀ x ∈ chars "    The function returns ", x ≠ '\n' from by decide) c hm
        · exact ne_of_pred (hrg c hm) (by decide)

theorem mdOf_one (b : Block) : mdOf [b] = generate_md (dcOf b) := by
  simp [mdOf, List.intercalate]

theorem mdOf_cons₂ (b b2 : Block) (t2 : List Block) :
    mdOf (b :: b2 :: t2) = generate_md (dcOf b) ++ '\n' :: mdOf (b2 :: t2) := by
  rw [mdOf, mdOf, List.map_cons, List.map_cons]
  rw [List.intercalate, List.intercalate]
  rw [List.intersperse_cons_cons]
  rw [List.flatten_cons, List.flatten_cons]
  rw [show chars "\n" = ['\n'] from rfl]
  rfl

theorem headings_aux (bs : List Block) (hbs : ∀ b ∈ bs, blockOk b = true) (hne : bs ≠ []) :
    (linesOf (mdOf bs)).filter (fun l => (chars "### ").isPrefixOf l) = bs.map headingOf := by
  induction bs with
  | nil => exact absurd rfl hne
  | cons b t ih =>
    cases t with
    | nil =>
      rw [mdOf_one, generate_md_dcOf]
      rw [show unlines (fragLines b) = unlines (fragLines b) ++ [] from (List.append_nil _).symm]
      rw [linesOf_unlines_append _ _ (fragLines_no_nl b (hbs b (List.mem_cons_self _ _)))]
      rw [List.filter_append, filter_fragLines]
      rfl
    | cons b2 t2 =>
      rw [mdOf_cons₂, generate_md_dcOf]
      rw [linesOf_unlines_append _ _ (fragLines_no_nl b (hbs b (List.mem_cons_self _ _)))]
      rw [show linesOf ('\n' :: mdOf (b2 :: t2)) = [] :: linesOf (mdOf (b2 :: t2)) from by
        rw [linesOf, if_pos rfl]]
      rw [List.filter_append, filter_fragLines]
      rw [List.filter_cons]
      rw [show ((chars "### ").isPrefixOf ([] : List Char)) = false from by decide]
      simp only [Bool.false_eq_true, if_false]
      rw [ih (fun x hx => hbs x (List.mem_cons_of_mem _ hx)) (by simp)]
      rfl

theorem headings_mdOf (bs : List Block) (hbs : ∀ b ∈ bs, blockOk b = true) :
    headingLinesOf (mdOf bs) = bs.map headingOf := by
  cases bs with
  | nil => decide
  | cons b t => exact headings_aux (b :: t) hbs (by simp)

end DaeDocu

namespace DaeDocu

/-! ### Consumption monotonicity: the error branch of `parse` is dead -/

theorem pbind_mono {p : Parser α} {f : α → Parser β}
    (hp : ∀ i r a, p i = .ok r a → r.length ≤ i.length)
    (hf : ∀ a i r b, f a i = .ok r b → r.length ≤ i.length) :
    ∀ i r b, pbind p f i = .ok r b → r.length ≤ i.length := by
  intro i r b h
  cases hpi : p i with
  | ok r1 a1 =>
    rw [pbind_ok hpi] at h
    exact le_trans (hf a1 r1 r b h) (hp i r1 a1 hpi)
  | fail => rw [pbind_fail hpi] at h; cases h
  | panic => rw [pbind_panic hpi] at h; cases h

theorem pureP_mono (a : α) : ∀ i r b, pureP a i = .ok r b → r.length ≤ i.length := by
  intro i r b h
  injection h with h1 h2
  rw [← h1]

theorem tag_mono (pat : List Char) :
    ∀ i r b, tag pat i = .ok r b → r.length ≤ i.length := by
  intro i r b h
  rw [tag] at h
  by_cases hp : pat.isPrefixOf i = true
  · rw [if_pos hp] at h
    injection h with h1 h2
    rw [← h1, List.length_drop]
    omega
  · rw [if_neg hp] at h; cases h

theorem charP_mono (c : Char) :
    ∀ i r b, charP c i = .ok r b → r.length ≤ i.length := by
  intro i r b h
  cases i with
  | nil => cases h
  | cons x t =>
    show r.length ≤ t.length + 1
    by_cases hx : (x == c) = true
    · rw [show charP c (x :: t) = if (x == c) = true then .ok t x else .fail from rfl,
        if_pos hx] at h
      injection h with h1 h2
      rw [← h1]
      omega
    · rw [show charP c (x :: t) = if (x == c) = true then .ok t x else .fail from rfl,
        if_neg hx] at h
      cases h

theorem takeWhileP_mono (p : Char → Bool) :
    ∀ i r b, takeWhileP p i = .ok r b → r.length ≤ i.length := by
  intro i r b h
  injection h with h1 h2
  rw [← h1]
  exact (List.dropWhile_suffix p).length_le

theorem multispace0_mono : ∀ i r b, multispace0 i = .ok r b → r.length ≤ i.length :=
  takeWhileP_mono isMS

theorem space0_mono : ∀ i r b, space0 i = .ok r b → r.length ≤ i.length :=
  takeWhileP_mono isSpaceTab

theorem multispace1_mono : ∀ i r b, multispace1 i = .ok r b → r.length ≤ i.length := by
  intro i r b h
  cases i with
  | nil => cases h
  | cons c t =>
    rw [multispace1] at h
    by_cases hc : isMS c = true
    · rw [if_pos hc] at h
      injection h with h1 h2
      rw [← h1]
      exact (List.dropWhile_suffix isMS).length_le
    · rw [if_neg hc] at h; cases h

theorem line_ending_mono : ∀ i r b, line_ending i = .ok r b → r.length ≤ i.length := by
  intro i r b h
  rw [line_ending] at h
  by_cases h1 : (chars "\n").isPrefixOf i = true
  · rw [if_pos h1] at h
    injection h with ha hb
    rw [← ha, List.length_drop]
    omega
  · rw [if_neg h1] at h
    by_cases h2 : (chars "\r\n").isPrefixOf i = true
    · rw [if_pos h2] at h
      injection h with ha hb
      rw [← ha, List.length_drop]
      omega
    · rw [if_neg h2] at h; cases h

theorem not_line_ending_mono : ∀ i r b, not_line_ending i = .ok r b → r.length ≤ i.length := by
  intro i r b h
  simp only [not_line_ending] at h
  split at h
  · split at h
    · injection h with h1 h2
      rw [← h1]
      exact (List.dropWhile_suffix isNotLE).length_le
    · cases h
  · injection h with h1 h2
    rw [← h1]
    exact (List.dropWhile_suffix isNotLE).length_le

end DaeDocu

namespace DaeDocu

theorem take_until_mono (pat : List Char) :
    ∀ i r b, take_until pat i = .ok r b → r.length ≤ i.length := by
  intro i r b h
  rw [take_until] at h
  cases hs : splitAtSub pat i with
  | none => rw [hs] at h; cases h
  | some q =>
    obtain ⟨a0, b0⟩ := q
    rw [hs] at h
    injection h with h1 h2
    cases pat with
    | nil =>
      rw [show splitAtSub [] i = some ([], i) from by
        cases i <;> simp [splitAtSub, List.isPrefixOf]] at hs
      injection hs with hs1
      injection hs1 with hsa hsb
      rw [← h1, ← hsb]
    | cons p t =>
      obtain ⟨he, _, _⟩ := splitAtSub_some_parts (by simp) hs
      rw [← h1, he, List.length_append]
      omega

theorem alt_mono {p q : Parser α}
    (hp : ∀ i r a, p i = .ok r a → r.length ≤ i.length)
    (hq : ∀ i r a, q i = .ok r a → r.length ≤ i.length) :
    ∀ i r a, alt p q i = .ok r a → r.length ≤ i.length := by
  intro i r a h
  cases hpi : p i with
  | ok r1 a1 => rw [alt_first hpi] at h; exact hp i r a (hpi.trans (by rw [← h]))
  | fail => rw [alt_second hpi] at h; exact hq i r a h
  | panic =>
    rw [show alt p q i = .panic from by
      show (match p i with
            | PResult.fail => q i
            | r => r) = .panic
      rw [hpi]] at h
    cases h

theorem opt_mono {p : Parser α}
    (hp : ∀ i r a, p i = .ok r a → r.length ≤ i.length) :
    ∀ i r a, opt p i = .ok r a → r.length ≤ i.length := by
  intro i r a h
  cases hpi : p i with
  | ok r1 a1 =>
    rw [opt_ok hpi] at h
    injection h with h1 h2
    rw [← h1]
    exact hp i r1 a1 hpi
  | fail =>
    rw [opt_fail hpi] at h
    injection h with h1 h2
    rw [← h1]
  | panic =>
    rw [show opt p i = .panic from by
      show (match p i with
            | PResult.ok r a => PResult.ok r (some a)
            | PResult.fail => PResult.ok i none
            | PResult.panic => PResult.panic) = .panic
      rw [hpi]] at h
    cases h

theorem many0Go_mono {p : Parser α}
    (_hp : ∀ i r a, p i = .ok r a → r.length ≤ i.length) :
    ∀ fuel i r l, many0Go p fuel i = .ok r l → r.length ≤ i.length := by
  intro fuel
  induction fuel with
  | zero => intro i r l h; cases h
  | succ k ih =>
    intro i r l h
    rw [many0Go_succ] at h
    cases hpi : p i with
    | panic => rw [hpi] at h; cases h
    | fail =>
      rw [hpi] at h
      injection h with h1 h2
      rw [← h1]
    | ok r1 a1 =>
      rw [hpi] at h
      have h9 : (if r1.length < i.length then
          match many0Go p k r1 with
          | PResult.ok r2 l2 => PResult.ok r2 (a1 :: l2)
          | PResult.fail => PResult.fail
          | PResult.panic => PResult.panic
        else PResult.fail) = PResult.ok r l := h
      by_cases hlt : r1.length < i.length
      · rw [if_pos hlt] at h9
        cases hrec : many0Go p k r1 with
        | ok r2 l2 =>
          rw [hrec] at h9
          injection h9 with h1 h2
          rw [← h1]
          exact le_trans (ih r1 r2 l2 hrec) (by omega)
        | fail => rw [hrec] at h9; cases h9
        | panic => rw [hrec] at h9; cases h9
      · rw [if_neg hlt] at h9; cases h9

theorem many0_mono {p : Parser α}
    (hp : ∀ i r a, p i = .ok r a → r.length ≤ i.length) :
    ∀ i r l, many0 p i = .ok r l → r.length ≤ i.length := by
  intro i r l h
  exact many0Go_mono hp _ i r l h

theorem parse_empty_line_mono :
    ∀ i r b, parse_empty_line i = .ok r b → r.length ≤ i.length := by
  rw [parse_empty_line]
  exact pbind_mono (tag_mono _) fun _ =>
    pbind_mono space0_mono fun _ =>
    pbind_mono line_ending_mono fun _ => pureP_mono _

theorem parse_param_mono :
    ∀ i r b, parse_param i = .ok r b → r.length ≤ i.length := by
  rw [parse_param]
  exact pbind_mono (tag_mono _) fun _ =>
    pbind_mono multispace0_mono fun _ =>
    pbind_mono (tag_mono _) fun _ =>
    pbind_mono multispace1_mono fun _ =>
    pbind_mono (take_until_mono _) fun _ =>
    pbind_mono multispace1_mono fun _ =>
    pbind_mono not_line_ending_mono fun _ => pureP_mono _

theorem parse_global_mono :
    ∀ i r b, parse_global i = .ok r b → r.length ≤ i.length := by
  rw [parse_global]
  exact pbind_mono (tag_mono _) fun _ =>
    pbind_mono multispace0_mono fun _ =>
    pbind_mono (tag_mono _) fun _ =>
    pbind_mono multispace1_mono fun _ =>
    pbind_mono (take_until_mono _) fun _ =>
    pbind_mono multispace1_mono fun _ =>
    pbind_mono not_line_ending_mono fun _ => pureP_mono _

theorem parse_return_mono :
    ∀ i r b, parse_return i = .ok r b → r.length ≤ i.length := by
  rw [parse_return]
  exact pbind_mono (tag_mono _) fun _ =>
    pbind_mono multispace0_mono fun _ =>
    pbind_mono (tag_mono _) fun _ =>
    pbind_mono multispace1_mono fun _ =>
    pbind_mono not_line_ending_mono fun _ => pureP_mono _

theorem parse_docu_info_mono :
    ∀ i r b, parse_docu_info i = .ok r b → r.length ≤ i.length := by
  rw [parse_docu_info]
  exact pbind_mono (opt_mono parse_empty_line_mono) fun _ =>
    pbind_mono (alt_mono parse_param_mono (alt_mono parse_global_mono parse_return_mono)) fun _ =>
    pbind_mono (opt_mono parse_empty_line_mono) fun _ => pureP_mono _

theorem infoItem_mono : ∀ i r b, infoItem i = .ok r b → r.length ≤ i.length := by
  rw [infoItem]
  exact pbind_mono parse_docu_info_mono fun _ =>
    pbind_mono (charP_mono _) fun _ => pureP_mono _

theorem parse_infos_mono :
    ∀ i r b, parse_infos i = .ok r b → r.length ≤ i.length := by
  rw [parse_infos]
  exact many0_mono infoItem_mono

theorem parse_description_mono :
    ∀ i r b, parse_description i = .ok r b → r.length ≤ i.length := by
  intro i r b h
  rw [parse_description_eq] at h
  cases ha : alt (take_until (chars "///\n")) (take_until (chars "func")) i with
  | fail => rw [ha] at h; cases h
  | panic => rw [ha] at h; cases h
  | ok r1 d1 =>
    rw [ha] at h
    have hr1 : r1.length ≤ i.length :=
      alt_mono (take_until_mono _) (take_until_mono _) i r1 d1 ha
    have h9 : (if (chars "///").isPrefixOf d1 = true then
        if trim (d1.drop 3) = [] then PResult.ok r1 none
        else PResult.ok r1 (some (trim (d1.drop 3)))
      else PResult.panic) = PResult.ok r b := h
    by_cases hp : (chars "///").isPrefixOf d1 = true
    · rw [if_pos hp] at h9
      by_cases ht : trim (d1.drop 3) = []
      · rw [if_pos ht] at h9
        injection h9 with h1 h2
        rw [← h1]
        exact hr1
      · rw [if_neg ht] at h9
        injection h9 with h1 h2
        rw [← h1]
        exact hr1
    · rw [if_neg hp] at h9; cases h9

theorem parse_func_strict :
    ∀ i r b, parse_func i = .ok r b → r.length < i.length := by
  intro i r b h
  rw [parse_func] at h
  cases hs : take_until (chars "\x7b\x7d;") i with
  | fail => rw [pbind_fail hs] at h; cases h
  | panic => rw [pbind_panic hs] at h; cases h
  | ok r1 f1 =>
    rw [pbind_ok hs] at h
    cases ht : tag (chars "\x7b\x7d;") r1 with
    | fail => rw [pbind_fail ht] at h; cases h
    | panic => rw [pbind_panic ht] at h; cases h
    | ok r2 t2 =>
      rw [pbind_ok ht] at h
      injection h with h1 h2
      rw [take_until] at hs
      cases hsp : splitAtSub (chars "\x7b\x7d;") i with
      | none => rw [hsp] at hs; cases hs
      | some q =>
        obtain ⟨a0, b0⟩ := q
        rw [hsp] at hs
        injection hs with hs1 hs2
        obtain ⟨he, hpre, _⟩ := splitAtSub_some_parts (by simp [chars]) hsp
        rw [tag, if_pos (by rw [← hs1]; exact hpre)] at ht
        injection ht with ht1 ht2
        have hb0 : 3 ≤ b0.length := by
          have := hpre
          rw [eq_append_of_isPrefixOf hpre, List.length_append]
          rw [show (chars "\x7b\x7d;").length = 3 from rfl]
          omega
        rw [← h1, ← ht1, ← hs1, List.length_drop, he, List.length_append]
        rw [show (chars "\x7b\x7d;").length = 3 from rfl]
        omega

theorem parse_doc_comment_strict :
    ∀ i r dc, parse_doc_comment i = .ok r dc → r.length < i.length := by
  intro i r dc h
  rw [parse_doc_comment] at h
  cases h1 : opt multispace0 i with
  | fail => rw [pbind_fail h1] at h; cases h
  | panic => rw [pbind_panic h1] at h; cases h
  | ok i1 a1 =>
    rw [pbind_ok h1] at h
    cases h2 : parse_description i1 with
    | fail => rw [pbind_fail h2] at h; cases h
    | panic => rw [pbind_panic h2] at h; cases h
    | ok i2 a2 =>
      rw [pbind_ok h2] at h
      cases h3 : many0 parse_empty_line i2 with
      | fail => rw [pbind_fail h3] at h; cases h
      | panic => rw [pbind_panic h3] at h; cases h
      | ok i3 a3 =>
        rw [pbind_ok h3] at h
        cases h4 : parse_infos i3 with
        | fail => rw [pbind_fail h4] at h; cases h
        | panic => rw [pbind_panic h4] at h; cases h
        | ok i4 a4 =>
          rw [pbind_ok h4] at h
          cases h5 : parse_func i4 with
          | fail => rw [pbind_fail h5] at h; cases h
          | panic => rw [pbind_panic h5] at h; cases h
          | ok i5 a5 =>
            rw [pbind_ok h5] at h
            have hr : r = i5 := by
              revert h
              cases hsig : parse_function_signature a5 with
              | none => intro h; cases h
              | some q =>
                obtain ⟨nm, prm⟩ := q
                intro h
                injection h with hh1 hh2
                rw [← hh1]
            rw [hr]
            calc i5.length < i4.length := parse_func_strict i4 i5 a5 h5
              _ ≤ i3.length := parse_infos_mono i3 i4 a4 h4
              _ ≤ i2.length := many0_mono parse_empty_line_mono i2 i3 a3 h3
              _ ≤ i1.length := parse_description_mono i1 i2 a2 h2
              _ ≤ i.length := opt_mono multispace0_mono i i1 a1 h1

theorem blockItem_strict :
    ∀ i r dc, blockItem i = .ok r dc → r.length < i.length := by
  intro i r dc h
  rw [blockItem] at h
  cases h1 : multispace0 i with
  | fail => rw [pbind_fail h1] at h; cases h
  | panic => rw [pbind_panic h1] at h; cases h
  | ok i1 a1 =>
    rw [pbind_ok h1] at h
    cases h2 : parse_doc_comment i1 with
    | fail => rw [pbind_fail h2] at h; cases h
    | panic => rw [pbind_panic h2] at h; cases h
    | ok i2 a2 =>
      rw [pbind_ok h2] at h
      cases h3 : multispace0 i2 with
      | fail => rw [pbind_fail h3] at h; cases h
      | panic => rw [pbind_panic h3] at h; cases h
      | ok i3 a3 =>
        rw [pbind_ok h3] at h
        injection h with hh1 hh2
        calc r.length = i3.length := by rw [hh1]
          _ ≤ i2.length := multispace0_mono i2 i3 a3 h3
          _ < i1.length := parse_doc_comment_strict i1 i2 a2 h2
          _ ≤ i.length := multispace0_mono i i1 a1 h1

theorem many0Go_ne_fail {p : Parser α}
    (hstrict : ∀ i r a, p i = .ok r a → r.length < i.length) :
    ∀ fuel i, i.length < fuel → many0Go p fuel i ≠ .fail := by
  intro fuel
  induction fuel with
  | zero => intro i hlen; omega
  | succ k ih =>
    intro i hlen hcontra
    rw [many0Go_succ] at hcontra
    cases hp : p i with
    | panic => rw [hp] at hcontra; cases hcontra
    | fail => rw [hp] at hcontra; cases hcontra
    | ok r a =>
      rw [hp] at hcontra
      have h9 : (if r.length < i.length then
          match many0Go p k r with
          | PResult.ok r2 l2 => PResult.ok r2 (a :: l2)
          | PResult.fail => PResult.fail
          | PResult.panic => PResult.panic
        else PResult.fail) = PResult.fail := hcontra
      have hr := hstrict i r a hp
      rw [if_pos hr] at h9
      cases hrec : many0Go p k r with
      | ok r2 l => rw [hrec] at h9; cases h9
      | panic => rw [hrec] at h9; cases h9
      | fail => exact ih r (by omega) hrec

theorem parse_doc_comments_ne_fail (input : List Char) :
    parse_doc_comments input ≠ .fail := by
  rw [parse_doc_comments, many0]
  exact many0Go_ne_fail blockItem_strict _ input (Nat.lt_succ_self _)

end DaeDocu

namespace DaeDocu

/-! ### Renderer lemmas for the Return tie-break and the heading prefix -/

theorem paramLines_append (a b : List DocuInfo) :
    paramLines (a ++ b) = paramLines a ++ paramLines b := by
  induction a with
  | nil => rfl
  | cons x t ih =>
    cases x with
    | Parameter n d => simp [paramLines, ih, List.append_assoc]
    | Global n d => simp [paramLines, ih]
    | Return d => simp [paramLines, ih]

theorem globalLines_append (a b : List DocuInfo) :
    globalLines (a ++ b) = globalLines a ++ globalLines b := by
  induction a with
  | nil => rfl
  | cons x t ih =>
    cases x with
    | Parameter n d => simp [globalLines, ih]
    | Global n d => simp [globalLines, ih, List.append_assoc]
    | Return d => simp [globalLines, ih]

theorem paramLines_filter_ret (l : List DocuInfo) :
    paramLines (l.filter fun x => !(isRet x)) = paramLines l := by
  induction l with
  | nil => rfl
  | cons x t ih =>
    cases x with
    | Parameter n d =>
      rw [List.filter_cons_of_pos (by rfl)]
      simp only [paramLines, ih]
    | Global n d =>
      rw [List.filter_cons_of_pos (by rfl)]
      simp only [paramLines, ih]
    | Return d =>
      rw [List.filter_cons_of_neg (by simp [isRet])]
      simp only [paramLines, ih]

theorem globalLines_filter_ret (l : List DocuInfo) :
    globalLines (l.filter fun x => !(isRet x)) = globalLines l := by
  induction l with
  | nil => rfl
  | cons x t ih =>
    cases x with
    | Parameter n d =>
      rw [List.filter_cons_of_pos (by rfl)]
      simp only [globalLines, ih]
    | Global n d =>
      rw [List.filter_cons_of_pos (by rfl)]
      simp only [globalLines, ih]
    | Return d =>
      rw [List.filter_cons_of_neg (by simp [isRet])]
      simp only [globalLines, ih]

theorem any_param_filter_ret (l : List DocuInfo) :
    (l.filter fun x => !(isRet x)).any isParam = l.any isParam := by
  induction l with
  | nil => rfl
  | cons x t ih =>
    cases x with
    | Parameter n d =>
      rw [List.filter_cons_of_pos (by rfl)]
      simp only [List.any_cons, ih]
    | Global n d =>
      rw [List.filter_cons_of_pos (by rfl)]
      simp only [List.any_cons, ih]
    | Return d =>
      rw [List.filter_cons_of_neg (by simp [isRet])]
      simp only [List.any_cons, ih]
      simp [isParam]

theorem any_global_filter_ret (l : List DocuInfo) :
    (l.filter fun x => !(isRet x)).any isGlobal = l.any isGlobal := by
  induction l with
  | nil => rfl
  | cons x t ih =>
    cases x with
    | Parameter n d =>
      rw [List.filter_cons_of_pos (by rfl)]
      simp only [List.any_cons, ih]
    | Global n d =>
      rw [List.filter_cons_of_pos (by rfl)]
      simp only [List.any_cons, ih]
    | Return d =>
      rw [List.filter_cons_of_neg (by simp [isRet])]
      simp only [List.any_cons, ih]
      simp [isGlobal]

theorem firstReturnLine_no_ret {l1 : List DocuInfo}
    (h : l1.all (fun x => !(isRet x)) = true) (rest : List DocuInfo) :
    firstReturnLine (l1 ++ rest) = firstReturnLine rest := by
  induction l1 with
  | nil => rfl
  | cons x t ih =>
    rw [List.all_cons, Bool.and_eq_true] at h
    cases x with
    | Parameter n d => simp only [List.cons_append, firstReturnLine]; exact ih h.2
    | Global n d => simp only [List.cons_append, firstReturnLine]; exact ih h.2
    | Return d => simp [isRet] at h

/-! ### The extracted declaration text never contains the terminator -/

theorem parse_func_parts : ∀ i r f, parse_func i = .ok r f →
    i = (f ++ chars "\x7b\x7d;") ++ r ∧ splitAtSub (chars "\x7b\x7d;") f = none := by
  intro i r f h
  rw [parse_func] at h
  cases hs : take_until (chars "\x7b\x7d;") i with
  | fail => rw [pbind_fail hs] at h; cases h
  | panic => rw [pbind_panic hs] at h; cases h
  | ok r1 f1 =>
    rw [pbind_ok hs] at h
    cases ht : tag (chars "\x7b\x7d;") r1 with
    | fail => rw [pbind_fail ht] at h; cases h
    | panic => rw [pbind_panic ht] at h; cases h
    | ok r2 t2 =>
      rw [pbind_ok ht] at h
      injection h with h1 h2
      rw [take_until] at hs
      cases hsp : splitAtSub (chars "\x7b\x7d;") i with
      | none => rw [hsp] at hs; cases hs
      | some q =>
        obtain ⟨a0, b0⟩ := q
        rw [hsp] at hs
        injection hs with hs1 hs2
        obtain ⟨he, hpre, hnone⟩ := splitAtSub_some_parts (by simp [chars]) hsp
        rw [tag, if_pos (by rw [← hs1]; exact hpre)] at ht
        injection ht with ht1 ht2
        constructor
        · rw [← h1, ← h2, ← ht1, ← hs1, ← hs2, he]
          rw [List.append_assoc]
          congr 1
          exact eq_append_of_isPrefixOf hpre
        · rw [← h2, ← hs2]
          exact hnone

end DaeDocu

namespace DaeDocu

/-! ### Small renderer lemmas shared by the claim theorems -/

theorem paramLines_ret_cons (rd : List Char) (l : List DocuInfo) :
    paramLines (DocuInfo.Return rd :: l) = paramLines l := rfl

theorem globalLines_ret_cons (rd : List Char) (l : List DocuInfo) :
    globalLines (DocuInfo.Return rd :: l) = globalLines l := rfl

theorem firstReturnLine_ret_cons (rd : List Char) (l : List DocuInfo) :
    firstReturnLine (DocuInfo.Return rd :: l) =
      chars "    The function returns " ++ rd ++ chars "\n" := rfl

theorem isParam_ret (rd : List Char) : isParam (DocuInfo.Return rd) = false := rfl

theorem isGlobal_ret (rd : List Char) : isGlobal (DocuInfo.Return rd) = false := rfl

theorem isRet_ret (rd : List Char) : isRet (DocuInfo.Return rd) = true := rfl

theorem generate_md_heading (dc : DocuComment) :
    ∃ t, generate_md dc = chars "### `" ++ (dc.func_name ++ (chars "`\n" ++ t)) := by
  refine ⟨chars "!!! function \"`" ++ (dc.func_name ++ (chars "`\"\n" ++
      ((match dc.description with
        | some d => chars "    " ++ (d ++ chars "\n")
        | none => []) ++
        (chars "    ```dae\n    " ++ (dc.func_string ++ (chars "\n    ```\n" ++
          ((if dc.infos.any isParam then chars "\n    **Parameters**  \n\n" ++ paramLines dc.infos
            else []) ++
            ((if dc.infos.any isGlobal then chars "\n    **Globals**  \n\n" ++ globalLines dc.infos
              else []) ++
              (if dc.infos.any isRet then chars "\n    **Return value**  \n" ++ firstReturnLine dc.infos
                else []))))))))), ?_⟩
  rw [generate_md]
  simp only [List.append_assoc]

end DaeDocu

namespace DaeDocu

/-! ### The claims -/

/-- C1: the spec claims that an input containing a malformed block (here a
declaration missing the closing terminator) makes the whole run fail with
no output.  In the code the repetition `many0` stops at the first block it
cannot match, so `parse` returns the Markdown of the preceding well-formed
block: the run produces partial output and never the error result. -/
theorem c1 :
    parse (chars "/// ok\n///\nfunc void good() \x7b\x7d;\n\n/// bad\n///\nfunc void bad(") =
      RunResult.output
        (chars "### `good`\n!!! function \"`good`\"\n    ok\n    ```dae\n    func void good() \n    ```\n") ∧
    parse (chars "/// ok\n///\nfunc void good() \x7b\x7d;\n\n/// bad\n///\nfunc void bad(") ≠
      RunResult.failure := by decide

/-- C2: the spec claims that the signature extractor reports a deviation
from the declaration grammar as an error carried to the caller and does
not crash the process.  In the code every step of
`parse_function_signature` is `.unwrap()`ed, so a deviating declaration
region is a Rust panic (modelled `none`), and through `parse_doc_comment`
it aborts the whole `parse` run as a panic, not as an error result. -/
theorem c2 :
    parse_function_signature (chars "/// @param x\nfunc void f() ") = none ∧
    parse (chars "/// d\n///\n/// @param x\nfunc void f() \x7b\x7d;") = RunResult.panicked := by
  decide

/-- C3 counterexample: a `@param` line missing its description does not
fail the parse.  The description region extends to the literal `func`, so
the malformed tag line is absorbed verbatim into the rendered description
and the run succeeds. -/
theorem c3_cex :
    parse (chars "/// d\n/// @param x\nfunc void f() \x7b\x7d;\n") =
      RunResult.output
        (chars "### `f`\n!!! function \"`f`\"\n    d\n/// @param x\n    ```dae\n    func void f() \n    ```\n") ∧
    parse (chars "/// d\n/// @param x\nfunc void f() \x7b\x7d;\n") ≠ RunResult.failure := by
  decide

/-- C3 (amended): when a documentation block carries a tag line that does
not match the full tag grammar (here `@param` with a name but no
description) and no blank `///` line separates it from the declaration,
the whole parse still succeeds: the malformed line is silently absorbed
into the description text of the rendered output, for every description
`d` and parameter name `nm` of the well-formed family. -/
theorem c3 (d nm : List Char) (hd : descOk d = true) (hn : identOk nm = true)
    (h1 : cleanBefore (chars "///\n")
      ((chars "///" ++ (' ' :: (d ++ (chars "\n/// @param " ++ (nm ++ ['\n']))))) ++
        (chars "func" ++ chars " void g() \x7b\x7d;\n")) [] = true)
    (h2 : cleanBefore (chars "func")
      (chars "///" ++ (' ' :: (d ++ (chars "\n/// @param " ++ (nm ++ ['\n'])))))
      (chars "func" ++ chars " void g() \x7b\x7d;\n") = true) :
    parse (chars "/// " ++ (d ++ (chars "\n/// @param " ++ (nm ++ chars "\nfunc void g() \x7b\x7d;\n")))) =
      RunResult.output (chars "### `g`\n!!! function \"`g`\"\n    " ++
        ((d ++ (chars "\n/// @param " ++ nm)) ++
          chars "\n    ```dae\n    func void g() \n    ```\n")) := by
  obtain ⟨hdg, hdne, hdh, hdl⟩ := descOk_parts hd
  have hshape : chars "/// " ++ (d ++ (chars "\n/// @param " ++ (nm ++ chars "\nfunc void g() \x7b\x7d;\n"))) =
      (chars "///" ++ (' ' :: (d ++ (chars "\n/// @param " ++ (nm ++ ['\n']))))) ++
        (chars "func" ++ chars " void g() \x7b\x7d;\n") := by
    simp only [show chars "/// " = ['/', '/', '/', ' '] from rfl,
      show chars "\n/// @param " = ['\n', '/', '/', '/', ' ', '@', 'p', 'a', 'r', 'a', 'm', ' '] from rfl,
      show chars "\nfunc void g() \x7b\x7d;\n" =
        ['\n', 'f', 'u', 'n', 'c', ' ', 'v', 'o', 'i', 'd', ' ', 'g', '(', ')', ' ', '\x7b', '\x7d', ';', '\n'] from rfl,
      show chars "///" = ['/', '/', '/'] from rfl,
      show chars "func" = ['f', 'u', 'n', 'c'] from rfl,
      show chars " void g() \x7b\x7d;\n" =
        [' ', 'v', 'o', 'i', 'd', ' ', 'g', '(', ')', ' ', '\x7b', '\x7d', ';', '\n'] from rfl,
      List.cons_append, List.nil_append, List.append_assoc]
  rw [hshape]
  have hxne : d ++ (chars "\n/// @param " ++ nm) ≠ [] := by
    cases d with
    | nil => exact absurd rfl hdne
    | cons c t => simp
  have htrim : trim (' ' :: (d ++ (chars "\n/// @param " ++ (nm ++ ['\n'])))) =
      d ++ (chars "\n/// @param " ++ nm) := by
    rw [show d ++ (chars "\n/// @param " ++ (nm ++ ['\n'])) =
        (d ++ (chars "\n/// @param " ++ nm)) ++ ['\n'] from by simp [List.append_assoc]]
    refine trim_sp_nl hxne ?_ ?_
    · intro c hc
      cases d with
      | nil => exact absurd rfl hdne
      | cons a t =>
        rw [show ((a :: t) ++ (chars "\n/// @param " ++ nm)).head? = some a from rfl] at hc
        injection hc with h9
        rw [← h9]
        exact hdh a rfl
    · intro c hc
      have hxl : (d ++ (chars "\n/// @param " ++ nm)).getLast? = nm.getLast? := by
        rw [show d ++ (chars "\n/// @param " ++ nm) = (d ++ chars "\n/// @param ") ++ nm from by
          simp [List.append_assoc]]
        rw [List.getLast?_append]
        rw [List.getLast?_eq_getLast nm (identOk_ne_nil hn)]
        rfl
      rw [hxl] at hc
      have hmem : c ∈ nm := by
        rw [List.getLast?_eq_head?_reverse] at hc
        exact (List.mem_reverse).mp (List.mem_of_mem_head? (by rw [hc]; rfl))
      exact identChar_not_MS (identOk_mem hn c hmem)
  have hdesc : parse_description
      ((chars "///" ++ (' ' :: (d ++ (chars "\n/// @param " ++ (nm ++ ['\n']))))) ++
        (chars "func" ++ chars " void g() \x7b\x7d;\n")) =
      .ok (chars "func" ++ chars " void g() \x7b\x7d;\n")
        (some (d ++ (chars "\n/// @param " ++ nm))) := by
    rw [parse_description_func h1 h2, htrim, if_neg hxne]
  have hpdc : parse_doc_comment
      ((chars "///" ++ (' ' :: (d ++ (chars "\n/// @param " ++ (nm ++ ['\n']))))) ++
        (chars "func" ++ chars " void g() \x7b\x7d;\n")) =
      .ok (chars "\n")
        { description := some (d ++ (chars "\n/// @param " ++ nm)),
          infos := [], func_string := chars "func void g() ", func_name := chars "g" } := by
    rw [parse_doc_comment]
    rw [pbind_ok (opt_ok (multispace0_skip (by
      intro c hc
      rw [show ((chars "///" ++ (' ' :: (d ++ (chars "\n/// @param " ++ (nm ++ ['\n']))))) ++
          (chars "func" ++ chars " void g() \x7b\x7d;\n")).head? = some '/' from rfl] at hc
      injection hc with h9
      rw [← h9]
      decide)))]
    rw [pbind_ok hdesc]
    rw [pbind_ok (show many0 parse_empty_line (chars "func" ++ chars " void g() \x7b\x7d;\n") =
      .ok (chars "func" ++ chars " void g() \x7b\x7d;\n") [] from by decide)]
    rw [pbind_ok (show parse_infos (chars "func" ++ chars " void g() \x7b\x7d;\n") =
      .ok (chars "func" ++ chars " void g() \x7b\x7d;\n") [] from by decide)]
    rw [pbind_ok (show parse_func (chars "func" ++ chars " void g() \x7b\x7d;\n") =
      .ok (chars "\n") (chars "func void g() ") from by decide)]
    rw [show parse_function_signature (chars "func void g() ") =
      some (chars "g", []) from by decide]
  have hblock : blockItem
      ((chars "///" ++ (' ' :: (d ++ (chars "\n/// @param " ++ (nm ++ ['\n']))))) ++
        (chars "func" ++ chars " void g() \x7b\x7d;\n")) =
      .ok [] { description := some (d ++ (chars "\n/// @param " ++ nm)),
               infos := [], func_string := chars "func void g() ", func_name := chars "g" } := by
    rw [blockItem]
    rw [pbind_ok (multispace0_skip (by
      intro c hc
      rw [show ((chars "///" ++ (' ' :: (d ++ (chars "\n/// @param " ++ (nm ++ ['\n']))))) ++
          (chars "func" ++ chars " void g() \x7b\x7d;\n")).head? = some '/' from rfl] at hc
      injection hc with h9
      rw [← h9]
      decide))]
    rw [pbind_ok hpdc]
    rw [pbind_ok (show multispace0 (chars "\n") = .ok [] (chars "\n") from by decide)]
    rfl
  have hfine : 2 ≤ (((chars "///" ++ (' ' :: (d ++ (chars "\n/// @param " ++ (nm ++ ['\n']))))) ++
      (chars "func" ++ chars " void g() \x7b\x7d;\n"))).length := by
    rw [List.length_append]
    have h9 : (chars "func" ++ chars " void g() \x7b\x7d;\n").length = 18 := rfl
    omega
  have hmany : parse_doc_comments
      ((chars "///" ++ (' ' :: (d ++ (chars "\n/// @param " ++ (nm ++ ['\n']))))) ++
        (chars "func" ++ chars " void g() \x7b\x7d;\n")) =
      .ok [] [{ description := some (d ++ (chars "\n/// @param " ++ nm)),
                infos := [], func_string := chars "func void g() ", func_name := chars "g" }] := by
    rw [parse_doc_comments, many0]
    obtain ⟨k, hk⟩ : ∃ k, (((chars "///" ++ (' ' :: (d ++ (chars "\n/// @param " ++ (nm ++ ['\n']))))) ++
        (chars "func" ++ chars " void g() \x7b\x7d;\n"))).length = k + 2 :=
      ⟨(((chars "///" ++ (' ' :: (d ++ (chars "\n/// @param " ++ (nm ++ ['\n']))))) ++
        (chars "func" ++ chars " void g() \x7b\x7d;\n"))).length - 2, by omega⟩
    rw [hk]
    exact many0Go_cons (k + 2) hblock (by simp only [List.length_nil]; omega)
      (many0Go_stop (k + 1) blockItem_fail_nil)
  show (match parse_doc_comments
      ((chars "///" ++ (' ' :: (d ++ (chars "\n/// @param " ++ (nm ++ ['\n']))))) ++
        (chars "func" ++ chars " void g() \x7b\x7d;\n")) with
    | PResult.ok _ dcs => RunResult.output (List.intercalate (chars "\n") (dcs.map generate_md))
    | PResult.fail => RunResult.failure
    | PResult.panic => RunResult.panicked) = _
  rw [hmany]
  show RunResult.output (List.intercalate (chars "\n")
    [generate_md { description := some (d ++ (chars "\n/// @param " ++ nm)),
                   infos := [], func_string := chars "func void g() ", func_name := chars "g" }]) = _
  rw [show List.intercalate (chars "\n")
      [generate_md { description := some (d ++ (chars "\n/// @param " ++ nm)),
                     infos := [], func_string := chars "func void g() ", func_name := chars "g" }] =
      generate_md { description := some (d ++ (chars "\n/// @param " ++ nm)),
                    infos := [], func_string := chars "func void g() ", func_name := chars "g" } from by
    simp [List.intercalate]]
  rw [generate_md]
  simp [chars, List.append_assoc]

/-- C3 witness: the amended C3 theorem at the concrete description
`Does a thing` and parameter name `x`. -/
theorem c3_witness :
    parse (chars "/// " ++ (chars "Does a thing" ++ (chars "\n/// @param " ++
        (chars "x" ++ chars "\nfunc void g() \x7b\x7d;\n")))) =
      RunResult.output (chars "### `g`\n!!! function \"`g`\"\n    " ++
        ((chars "Does a thing" ++ (chars "\n/// @param " ++ chars "x")) ++
          chars "\n    ```dae\n    func void g() \n    ```\n")) :=
  c3 (chars "Does a thing") (chars "x") (by decide) (by decide) (by decide) (by decide)

/-- C4: the signature extractor, on any declaration of the grammar family
`kw ty nm(spans)tail`, returns the function name together with the
comma-separated parameter spans trimmed of surrounding whitespace in
source order, and an empty parameter list (no text between the
parentheses, one empty span) yields zero parameters, never a one-element
list holding an empty string. -/
theorem c4 (kw ty nm : List Char) (ps : List (List Char)) (tail : List Char)
    (hkw : identOk kw = true) (hty : identOk ty = true) (hnm : identOk nm = true)
    (hne : ps ≠ []) (hps : ∀ s ∈ ps, spanOk s = true)
    (htail : tail.all (fun c => !(c == ',')) = true) :
    parse_function_signature
      (kw ++ ' ' :: (ty ++ ' ' :: (nm ++ '(' :: (spansText ps ++ ')' :: tail)))) =
      some (nm, if ps = [[]] then [] else ps.map trim) :=
  sig_family kw ty nm ps tail hkw hty hnm hne hps htail

/-- C4 witness: the C4 theorem at the empty parameter list of
`func int Doc_CreateMap()` (zero parameters) and at the two-span list of
`func void Doc_Show(var int docID, var int page)` (trimmed, in order). -/
theorem c4_witness :
    parse_function_signature
      (chars "func" ++ ' ' :: (chars "int" ++ ' ' :: (chars "Doc_CreateMap" ++ '(' ::
        (spansText [[]] ++ ')' :: chars " ")))) =
      some (chars "Doc_CreateMap", if ([[]] : List (List Char)) = [[]] then [] else [[]].map trim) ∧
    parse_function_signature
      (chars "func" ++ ' ' :: (chars "void" ++ ' ' :: (chars "Doc_Show" ++ '(' ::
        (spansText [chars "var int docID", chars " var int page"] ++ ')' :: chars " ")))) =
      some (chars "Doc_Show",
        if [chars "var int docID", chars " var int page"] = [[]] then []
        else [chars "var int docID", chars " var int page"].map trim) :=
  ⟨c4 (chars "func") (chars "int") (chars "Doc_CreateMap") [[]] (chars " ")
      (by decide) (by decide) (by decide) (by decide) (by decide) (by decide),
   c4 (chars "func") (chars "void") (chars "Doc_Show")
      [chars "var int docID", chars " var int page"] (chars " ")
      (by decide) (by decide) (by decide) (by decide) (by decide) (by decide)⟩

set_option maxRecDepth 8192 in
/-- C5 counterexample: the rendered code sample of a successfully parsed
block does not end with the `\x7b\x7d;` placeholder; in this revision the
terminator is consumed and never re-appended, so the whole output contains
no occurrence of it at all. -/
theorem c5_cex :
    parse (chars "/// Display the document using the document manager ID\n///\n/// @param docID document manager ID\nfunc void Doc_Show(var int docID) \x7b\x7d;\n") =
      RunResult.output (chars "### `Doc_Show`\n!!! function \"`Doc_Show`\"\n    Display the document using the document manager ID\n    ```dae\n    func void Doc_Show(var int docID) \n    ```\n\n    **Parameters**  \n\n    - `#!dae docID` - document manager ID\n") ∧
    splitAtSub (chars "\x7b\x7d;")
      (chars "### `Doc_Show`\n!!! function \"`Doc_Show`\"\n    Display the document using the document manager ID\n    ```dae\n    func void Doc_Show(var int docID) \n    ```\n\n    **Parameters**  \n\n    - `#!dae docID` - document manager ID\n") = none := by
  decide

/-- C5 (amended): the declaration text extracted by `parse_func` is the
portion of the input strictly before the first `\x7b\x7d;` terminator: the
terminator is consumed from the input but not part of the returned text,
which therefore contains no occurrence of it; no placeholder is appended
in this revision. -/
theorem c5 : ∀ i r f, parse_func i = .ok r f →
    i = (f ++ chars "\x7b\x7d;") ++ r ∧ splitAtSub (chars "\x7b\x7d;") f = none :=
  parse_func_parts

/-- C5 witness: the amended C5 theorem at a concrete declaration with a
trailing remainder. -/
theorem c5_witness :
    chars "func void f() \x7b\x7d;\nrest" =
      (chars "func void f() " ++ chars "\x7b\x7d;") ++ chars "\nrest" ∧
    splitAtSub (chars "\x7b\x7d;") (chars "func void f() ") = none :=
  c5 (chars "func void f() \x7b\x7d;\nrest") (chars "\nrest") (chars "func void f() ")
    (by decide)

/-- C6: when the infos hold more than one `Return` annotation, the
renderer's output is unchanged if every `Return` after the first is
dropped (the later ones are stored but never rendered), and the return
line emitted is the one built from the first `Return` annotation. -/
theorem c6 (d : Option (List Char)) (l1 : List DocuInfo) (rd : List Char)
    (rest : List DocuInfo) (fs fn : List Char)
    (h : l1.all (fun x => !(isRet x)) = true) :
    generate_md { description := d, infos := l1 ++ DocuInfo.Return rd :: rest,
                  func_string := fs, func_name := fn } =
      generate_md { description := d,
                    infos := l1 ++ DocuInfo.Return rd :: rest.filter (fun x => !(isRet x)),
                    func_string := fs, func_name := fn } ∧
    firstReturnLine (l1 ++ DocuInfo.Return rd :: rest) =
      chars "    The function returns " ++ rd ++ chars "\n" := by
  constructor
  · rw [generate_md, generate_md]
    simp only [paramLines_append, globalLines_append, paramLines_ret_cons, globalLines_ret_cons,
      paramLines_filter_ret, globalLines_filter_ret,
      List.any_append, List.any_cons, any_param_filter_ret, any_global_filter_ret,
      firstReturnLine_no_ret h, firstReturnLine_ret_cons,
      isParam_ret, isGlobal_ret, isRet_ret,
      Bool.false_or, Bool.true_or, Bool.or_true, if_true]
  · rw [firstReturnLine_no_ret h]
    exact firstReturnLine_ret_cons rd rest

/-- C6 witness: the C6 theorem at a unit with a parameter annotation and
two `Return` annotations. -/
theorem c6_witness :
    generate_md { description := none,
                  infos := [DocuInfo.Parameter (chars "x") (chars "a")] ++
                    DocuInfo.Return (chars "one") :: [DocuInfo.Return (chars "two")],
                  func_string := chars "func void f() ", func_name := chars "f" } =
      generate_md { description := none,
                    infos := [DocuInfo.Parameter (chars "x") (chars "a")] ++
                      DocuInfo.Return (chars "one") ::
                        ([DocuInfo.Return (chars "two")].filter (fun x => !(isRet x))),
                    func_string := chars "func void f() ", func_name := chars "f" } ∧
    firstReturnLine ([DocuInfo.Parameter (chars "x") (chars "a")] ++
        DocuInfo.Return (chars "one") :: [DocuInfo.Return (chars "two")]) =
      chars "    The function returns " ++ chars "one" ++ chars "\n" :=
  c6 none [DocuInfo.Parameter (chars "x") (chars "a")] (chars "one")
    [DocuInfo.Return (chars "two")] (chars "func void f() ") (chars "f") (by decide)

/-- C7 counterexample: the implementation strips the `///` marker only
from the first line of the description region and trims the region as a
whole, so a two-line description keeps the second line's `/// ` marker
embedded; the spec's per-line extraction (modelled by `claimDescription`)
gives a different text. -/
theorem c7_cex :
    parse_description (chars "/// a\n/// b\n///\nfunc void f() \x7b\x7d;") =
      PResult.ok (chars "///\nfunc void f() \x7b\x7d;") (some (chars "a\n/// b")) ∧
    claimDescription [chars "/// a", chars "/// b"] = some (chars "a\nb") ∧
    some (chars "a\n/// b") ≠ some (chars "a\nb") := by decide

/-- C7 (amended): the description region runs to the first blank `///`
line; the implementation strips the comment marker once at the start of
the region and trims the whole region's text as one block (inner line
markers survive), and a region whose content trims to nothing yields no
description (`none`), never an empty string. -/
theorem c7 (d rest : List Char)
    (hclean : cleanBefore (chars "///\n") (chars "///" ++ d) (chars "///\n" ++ rest) = true) :
    parse_description ((chars "///" ++ d) ++ (chars "///\n" ++ rest)) =
      PResult.ok (chars "///\n" ++ rest) (if trim d = [] then none else some (trim d)) :=
  parse_description_blank hclean

/-- C7 witness: the amended C7 theorem at a whitespace-only description
region, which yields `none`. -/
theorem c7_witness :
    parse_description ((chars "///" ++ chars "   ") ++ (chars "///\n" ++ chars "func void f() \x7b\x7d;")) =
      PResult.ok (chars "///\n" ++ chars "func void f() \x7b\x7d;")
        (if trim (chars "   ") = [] then none else some (trim (chars "   "))) :=
  c7 (chars "   ") (chars "func void f() \x7b\x7d;") (by decide)

/-- C8: the renderer is a total function of the documentation unit with
no failure case: for every description, every list of annotations (in
particular any number of `Parameter` annotations, unrelated to the
declaration text, which carries no separately stored parameter list to
validate against) and every declaration text and name, it produces a
Markdown fragment opening with the unit's heading. -/
theorem c8 (description : Option (List Char)) (infos : List DocuInfo) (fs fn : List Char) :
    ∃ t, generate_md { description := description, infos := infos,
                       func_string := fs, func_name := fn } =
      chars "### `" ++ (fn ++ (chars "`\n" ++ t)) :=
  generate_md_heading
    { description := description, infos := infos, func_string := fs, func_name := fn }

/-- C9: on every well-formed input of `N` documentation blocks the full
pipeline succeeds, and its output contains exactly `N` level-3 heading
lines, one per block, carrying the function names in input order. -/
theorem c9 (bs : List Block) (hbs : ∀ b ∈ bs, blockOk b = true) :
    parse (renderInput bs) = RunResult.output (mdOf bs) ∧
    headingLinesOf (mdOf bs) = bs.map headingOf ∧
    (headingLinesOf (mdOf bs)).length = bs.length := by
  refine ⟨parse_family bs hbs, headings_mdOf bs hbs, ?_⟩
  rw [headings_mdOf bs hbs, List.length_map]

/-- C9 witness: the C9 theorem at a concrete two-block input. -/
theorem c9_witness :
    parse (renderInput [⟨chars "desc one", [(chars "x", chars "first arg")], some (chars "an int"), chars "Foo"⟩,
        ⟨chars "desc two", [], none, chars "Bar"⟩]) =
      RunResult.output (mdOf [⟨chars "desc one", [(chars "x", chars "first arg")], some (chars "an int"), chars "Foo"⟩,
        ⟨chars "desc two", [], none, chars "Bar"⟩]) ∧
    headingLinesOf (mdOf [⟨chars "desc one", [(chars "x", chars "first arg")], some (chars "an int"), chars "Foo"⟩,
        ⟨chars "desc two", [], none, chars "Bar"⟩]) =
      [(⟨chars "desc one", [(chars "x", chars "first arg")], some (chars "an int"), chars "Foo"⟩ : Block),
        ⟨chars "desc two", [], none, chars "Bar"⟩].map headingOf ∧
    (headingLinesOf (mdOf [⟨chars "desc one", [(chars "x", chars "first arg")], some (chars "an int"), chars "Foo"⟩,
        ⟨chars "desc two", [], none, chars "Bar"⟩])).length =
      [(⟨chars "desc one", [(chars "x", chars "first arg")], some (chars "an int"), chars "Foo"⟩ : Block),
        ⟨chars "desc two", [], none, chars "Bar"⟩].length :=
  c9 [⟨chars "desc one", [(chars "x", chars "first arg")], some (chars "an int"), chars "Foo"⟩,
      ⟨chars "desc two", [], none, chars "Bar"⟩] (by decide)

/-- C10: the error branch of `parse` is unreachable: `parse_doc_comments`
is a `many0` repetition, which never reports a recoverable error (it stops
at the first text its element parser cannot match and leaves it
unconsumed), so `parse` never returns the `None` error result. -/
theorem c10 (input : List Char) : parse input ≠ RunResult.failure := by
  intro h
  have h2 : (match parse_doc_comments input with
      | PResult.ok _ dcs => RunResult.output (List.intercalate (chars "\n") (dcs.map generate_md))
      | PResult.fail => RunResult.failure
      | PResult.panic => RunResult.panicked) = RunResult.failure := h
  cases hp : parse_doc_comments input with
  | ok r dcs =>
    rw [hp] at h2
    exact absurd h2 (by simp)
  | fail => exact absurd hp (parse_doc_comments_ne_fail input)
  | panic =>
    rw [hp] at h2
    exact absurd h2 (by simp)

end DaeDocu
